import Mathlib

/-!
# Verification of the WebClaw agent core

A shallow embedding, in Lean 4, of the WebClaw browser agent (Rust sources:
`src/lib.rs`, `src/chat.rs`, `src/security.rs`, `src/memory.rs`), together
with theorems settling the specification claims about the response parser,
the agent loop, the context-window trimming, the security gate and the
memory store.

Modelling conventions:
* Rust `String`/`&str` values are modelled as `List Char` (`Str`). Rust
  byte indices into strings always occur at character boundaries in the
  code under study, so character indices are a faithful model.
* Rust `char::is_whitespace` / `is_alphanumeric` / `to_lowercase` are
  modelled by their ASCII restrictions (all inputs exercised by the
  claims are ASCII).
* Machine integers are modelled as `Nat`/`Int`, with explicit `% 2 ^ 64`
  where `u64` wrap-around matters (the SipHash implementation).
* `f32` scores of the memory store are modelled as exact rationals `ℚ`;
  the cosine similarity (whose Rust implementation uses `f32::sqrt`) is
  kept as an explicit function parameter of the recall model.
* Fallible operations return `Option`; a Rust panic is modelled as `none`.
-/

namespace WebClaw

/-- Rust strings, modelled as lists of characters. -/
abbrev Str := List Char

/-- ASCII restriction of Rust `char::is_whitespace` (JSON/trim whitespace). -/
def isWsChar (c : Char) : Bool :=
  c = ' ' || c = '\t' || c = '\n' || c = '\r'

/-- Rust `str::trim`: drop leading and trailing whitespace. -/
def trimStr (s : Str) : Str :=
  ((s.dropWhile isWsChar).reverse.dropWhile isWsChar).reverse

/-- Rust `str::strip_prefix`: `some` of the remainder when `pat` is a prefix. -/
def stripPre (pat s : Str) : Option Str :=
  if pat.isPrefixOf s then some (s.drop pat.length) else none

/-- Rust `str::find(pattern)`: index of the first occurrence of `pat` in `s`. -/
def findSubstr (pat : Str) : Str → Option Nat
  | [] => if pat.isEmpty then some 0 else none
  | c :: rest =>
    if pat.isPrefixOf (c :: rest) then some 0
    else (findSubstr pat rest).map (· + 1)

/-- Rust `str::rfind(pattern)`: index of the last occurrence of `pat` in `s`. -/
def rfindSubstr (pat s : Str) : Option Nat :=
  ((List.range (s.length + 1)).filter (fun i => pat.isPrefixOf (s.drop i))).getLast?

/-- Rust `str::contains(pattern)`: substring containment. -/
def containsStr (hay pat : Str) : Bool :=
  (List.range (hay.length + 1)).any (fun i => pat.isPrefixOf (hay.drop i))

/-! ## JSON values

Model of `serde_json::Value`.  Objects are kept as association lists
sorted strictly by key, mirroring the `BTreeMap` representation used by
`serde_json` (so structural equality of `Json` values coincides with
`serde_json::Value` equality; duplicate keys collapse, last one winning).
Numbers keep their raw literal text; two numeric literals are compared
textually (the claims under study never compare distinct literals that
denote the same number). -/

inductive Json where
  | null : Json
  | bool (b : Bool) : Json
  | num (raw : Str) : Json
  | str (s : Str) : Json
  | arr (elems : List Json) : Json
  | obj (fields : List (Str × Json)) : Json

mutual

def jsonDecEq : (a b : Json) → Decidable (a = b)
  | .null, .null => isTrue rfl
  | .null, .bool _ => isFalse (by simp)
  | .null, .num _ => isFalse (by simp)
  | .null, .str _ => isFalse (by simp)
  | .null, .arr _ => isFalse (by simp)
  | .null, .obj _ => isFalse (by simp)
  | .bool _, .null => isFalse (by simp)
  | .bool a, .bool b =>
    if h : a = b then isTrue (by rw [h]) else isFalse (by simp [h])
  | .bool _, .num _ => isFalse (by simp)
  | .bool _, .str _ => isFalse (by simp)
  | .bool _, .arr _ => isFalse (by simp)
  | .bool _, .obj _ => isFalse (by simp)
  | .num _, .null => isFalse (by simp)
  | .num _, .bool _ => isFalse (by simp)
  | .num a, .num b =>
    if h : a = b then isTrue (by rw [h]) else isFalse (by simp [h])
  | .num _, .str _ => isFalse (by simp)
  | .num _, .arr _ => isFalse (by simp)
  | .num _, .obj _ => isFalse (by simp)
  | .str _, .null => isFalse (by simp)
  | .str _, .bool _ => isFalse (by simp)
  | .str _, .num _ => isFalse (by simp)
  | .str a, .str b =>
    if h : a = b then isTrue (by rw [h]) else isFalse (by simp [h])
  | .str _, .arr _ => isFalse (by simp)
  | .str _, .obj _ => isFalse (by simp)
  | .arr _, .null => isFalse (by simp)
  | .arr _, .bool _ => isFalse (by simp)
  | .arr _, .num _ => isFalse (by simp)
  | .arr _, .str _ => isFalse (by simp)
  | .arr a, .arr b =>
    match jsonListDecEq a b with
    | isTrue h => isTrue (by rw [h])
    | isFalse h => isFalse (by simp [h])
  | .arr _, .obj _ => isFalse (by simp)
  | .obj _, .null => isFalse (by simp)
  | .obj _, .bool _ => isFalse (by simp)
  | .obj _, .num _ => isFalse (by simp)
  | .obj _, .str _ => isFalse (by simp)
  | .obj _, .arr _ => isFalse (by simp)
  | .obj a, .obj b =>
    match jsonFieldsDecEq a b with
    | isTrue h => isTrue (by rw [h])
    | isFalse h => isFalse (by simp [h])

def jsonListDecEq : (a b : List Json) → Decidable (a = b)
  | [], [] => isTrue rfl
  | [], _ :: _ => isFalse (by simp)
  | _ :: _, [] => isFalse (by simp)
  | a :: as, b :: bs =>
    match jsonDecEq a b, jsonListDecEq as bs with
    | isTrue h1, isTrue h2 => isTrue (by rw [h1, h2])
    | isFalse h1, _ => isFalse (by simp [h1])
    | _, isFalse h2 => isFalse (by simp [h2])

def jsonFieldsDecEq : (a b : List (Str × Json)) → Decidable (a = b)
  | [], [] => isTrue rfl
  | [], _ :: _ => isFalse (by simp)
  | _ :: _, [] => isFalse (by simp)
  | (k, v) :: as, (k', v') :: bs =>
    match (inferInstance : Decidable (k = k')), jsonDecEq v v', jsonFieldsDecEq as bs with
    | isTrue h0, isTrue h1, isTrue h2 => isTrue (by rw [h0, h1, h2])
    | isFalse h0, _, _ => isFalse (by simp [h0])
    | _, isFalse h1, _ => isFalse (by simp [h1])
    | _, _, isFalse h2 => isFalse (by simp [h2])

end

instance : DecidableEq Json := jsonDecEq

/-- Strict lexicographic order on keys (the `BTreeMap` key order,
restricted to the byte/char comparison used for strings). -/
def keyLt : Str → Str → Bool
  | [], [] => false
  | [], _ :: _ => true
  | _ :: _, [] => false
  | a :: as, b :: bs => if a = b then keyLt as bs else decide (a < b)

/-- Insert a field into a key-sorted association list, replacing the value
on an equal key (last duplicate wins, as in `serde_json`). -/
def objInsert (k : Str) (v : Json) : List (Str × Json) → List (Str × Json)
  | [] => [(k, v)]
  | (k', v') :: rest =>
    if k = k' then (k, v) :: rest
    else if keyLt k k' then (k, v) :: (k', v') :: rest
    else (k', v') :: objInsert k v rest

/-- Lookup in an object's field list (`serde_json::Value::get`). -/
def objLookup (k : Str) : List (Str × Json) → Option Json
  | [] => none
  | (k', v') :: rest => if k = k' then some v' else objLookup k rest

/-! ## A JSON parser

Model of `serde_json::from_str`.  The parser is written with an explicit
fuel argument (decremented at each nesting/field step) so that all
definitions are structurally recursive and kernel-evaluable; the
top-level entry point supplies `length + 1` fuel, which is shown
sufficient for the inputs used by the theorems.  Two deliberate
simplifications (noted in §Modelling conventions): numeric literals are
scanned leniently and kept as raw text, and `\u` escapes for surrogate
pairs are rejected. -/

def skipWs (s : Str) : Str := s.dropWhile isWsChar

/-- Value of a hex digit, as used by `\u` escapes. -/
def hexDigitVal (c : Char) : Option Nat :=
  if '0' ≤ c ∧ c ≤ '9' then some (c.toNat - '0'.toNat)
  else if 'a' ≤ c ∧ c ≤ 'f' then some (c.toNat - 'a'.toNat + 10)
  else if 'A' ≤ c ∧ c ≤ 'F' then some (c.toNat - 'A'.toNat + 10)
  else none

/-- Parse the body of a JSON string literal (after the opening quote).
Returns the decoded content and the remaining input after the closing
quote. -/
def parseStringBody : Str → Option (Str × Str)
  | [] => none
  | c :: rest =>
    if c = '"' then some ([], rest)
    else if c = '\\' then
      match rest with
      | [] => none
      | e :: rest2 =>
        let simple : Option Char :=
          if e = '"' then some '"'
          else if e = '\\' then some '\\'
          else if e = '/' then some '/'
          else if e = 'b' then some (Char.ofNat 8)
          else if e = 'f' then some (Char.ofNat 12)
          else if e = 'n' then some '\n'
          else if e = 'r' then some '\r'
          else if e = 't' then some '\t'
          else none
        match simple with
        | some d => (parseStringBody rest2).map (fun p => (d :: p.1, p.2))
        | none =>
          if e = 'u' then
            match rest2 with
            | h1 :: h2 :: h3 :: h4 :: rest3 =>
              match hexDigitVal h1, hexDigitVal h2, hexDigitVal h3, hexDigitVal h4 with
              | some a, some b, some c', some d =>
                let code := ((a * 16 + b) * 16 + c') * 16 + d
                if code < 0xD800 then
                  (parseStringBody rest3).map (fun p => (Char.ofNat code :: p.1, p.2))
                else none
              | _, _, _, _ => none
            | _ => none
          else none
    else (parseStringBody rest).map (fun p => (c :: p.1, p.2))

/-- Characters that can continue a numeric literal. -/
def isNumChar (c : Char) : Bool :=
  c.isDigit || c = '-' || c = '+' || c = '.' || c = 'e' || c = 'E'

/-- Parse a numeric literal (kept as raw text). -/
def parseNum (s : Str) : Option (Json × Str) :=
  match s with
  | [] => none
  | c :: _ =>
    if c.isDigit || c = '-' then
      let raw := s.takeWhile isNumChar
      some (Json.num raw, s.drop raw.length)
    else none

mutual

/-- Parse one JSON value; returns the value and the remaining input. -/
def parseVal : Nat → Str → Option (Json × Str)
  | 0, _ => none
  | fuel + 1, s =>
    let s := skipWs s
    match s with
    | [] => none
    | c :: rest =>
      if c = '{' then
        match skipWs rest with
        | '}' :: r => some (Json.obj [], r)
        | _ => parseObjRest fuel rest []
      else if c = '[' then
        match skipWs rest with
        | ']' :: r => some (Json.arr [], r)
        | _ => parseArrRest fuel rest []
      else if c = '"' then
        (parseStringBody rest).map (fun p => (Json.str p.1, p.2))
      else
        match stripPre ("true".toList) s with
        | some r => some (Json.bool true, r)
        | none =>
          match stripPre ("false".toList) s with
          | some r => some (Json.bool false, r)
          | none =>
            match stripPre ("null".toList) s with
            | some r => some (Json.null, r)
            | none => parseNum s

/-- Parse the fields of an object (positioned before a key), accumulating
into a key-sorted field list. -/
def parseObjRest : Nat → Str → List (Str × Json) → Option (Json × Str)
  | 0, _, _ => none
  | fuel + 1, s, acc =>
    match skipWs s with
    | '"' :: rest =>
      match parseStringBody rest with
      | none => none
      | some (key, rem) =>
        match skipWs rem with
        | ':' :: rem2 =>
          match parseVal fuel rem2 with
          | none => none
          | some (v, rem3) =>
            let acc' := objInsert key v acc
            match skipWs rem3 with
            | ',' :: rem4 => parseObjRest fuel rem4 acc'
            | '}' :: rem4 => some (Json.obj acc', rem4)
            | _ => none
        | _ => none
    | _ => none

/-- Parse the elements of an array (positioned before an element). -/
def parseArrRest : Nat → Str → List Json → Option (Json × Str)
  | 0, _, _ => none
  | fuel + 1, s, acc =>
    match parseVal fuel s with
    | none => none
    | some (v, rem) =>
      match skipWs rem with
      | ',' :: rem2 => parseArrRest fuel rem2 (acc ++ [v])
      | ']' :: rem2 => some (Json.arr (acc ++ [v]), rem2)
      | _ => none

end

/-- `serde_json::from_str::<Value>`: parse a complete JSON document
(only whitespace may follow the value). -/
def parseJsonStr (s : Str) : Option Json :=
  match parseVal (s.length + 1) s with
  | some (v, rem) => if (skipWs rem).isEmpty then some v else none
  | none => none

/-! ## The tool-call parser (`ClaWasm::parse_all_tool_calls`) -/

/-- `lib.rs` `ToolCall`: a parsed tool invocation. -/
structure ToolCall where
  name : Str
  arguments : Json
deriving DecidableEq

/-- Derived `serde` deserialization of `ToolCall` from a JSON value: an
object with a string `name` field and an `arguments` field (extra fields
are ignored, as with default `serde` settings). -/
def toolCallOfJson : Json → Option ToolCall
  | .obj fields =>
    match objLookup ("name".toList) fields with
    | some (.str n) =>
      match objLookup ("arguments".toList) fields with
      | some a => some ⟨n, a⟩
      | none => none
    | _ => none
  | _ => none

/-- `serde_json::from_str::<ToolCall>`. -/
def parseToolCallStr (s : Str) : Option ToolCall :=
  (parseJsonStr s).bind toolCallOfJson

/-- The `(name, arguments)` equality used by the duplicate check in
`parse_all_tool_calls`. -/
def sameCall (a b : ToolCall) : Bool :=
  a.name == b.name && a.arguments == b.arguments

/-- First pass of `parse_all_tool_calls`: the loop over ```` ```tool ````
fenced blocks.  After each found marker the search resumes right after
the marker (`search_start += start + 7`), which the recursion models by
continuing on the suffix.  Note that this pass pushes parsed calls
without any duplicate check. -/
def fencedPass : Nat → Str → List ToolCall
  | 0, _ => []
  | fuel + 1, s =>
    match findSubstr ("```tool".toList) s with
    | none => []
    | some start =>
      let rest := s.drop (start + 7)
      let here : List ToolCall :=
        match findSubstr ("```".toList) rest with
        | some endRel => (parseToolCallStr (trimStr (rest.take endRel))).toList
        | none => []
      here ++ fencedPass fuel rest

/-- State of the balanced-brace scan: current depth, the characters
collected since the opening top-level brace (`start_idx` slice), and the
calls list. -/
structure BraceSt where
  depth : Int
  buf : Option Str
  calls : List ToolCall

/-- Handle one complete top-level `{...}` slice, as in the second pass of
`parse_all_tool_calls`: try `ToolCall` deserialization first, then fall
back to any JSON object with a string `name` field, making all other
fields the implicit argument object; both branches are guarded by the
duplicate check. -/
def pushBrace (calls : List ToolCall) (body : Str) : List ToolCall :=
  match parseJsonStr body with
  | none => calls
  | some v =>
    match toolCallOfJson v with
    | some call =>
      if calls.any (fun c => sameCall c call) then calls else calls ++ [call]
    | none =>
      match v with
      | .obj fields =>
        match objLookup ("name".toList) fields with
        | some (.str n) =>
          let call : ToolCall :=
            ⟨n, Json.obj (fields.filter (fun kv => !(kv.1 == "name".toList)))⟩
          if calls.any (fun c => sameCall c call) then calls else calls ++ [call]
        | _ => calls
      | _ => calls

/-- One character step of the balanced-brace scan. -/
def braceStep (st : BraceSt) (c : Char) : BraceSt :=
  if c = '{' then
    { depth := st.depth + 1
      buf := if st.depth = 0 then some ['{'] else st.buf.map (· ++ [c])
      calls := st.calls }
  else if c = '}' then
    let d := st.depth - 1
    if d = 0 then
      match st.buf with
      | some b => { depth := d, buf := none, calls := pushBrace st.calls (b ++ ['}']) }
      | none => { depth := d, buf := none, calls := st.calls }
    else { depth := d, buf := st.buf.map (· ++ [c]), calls := st.calls }
  else { st with buf := st.buf.map (· ++ [c]) }

/-- Second pass of `parse_all_tool_calls`: single-pass depth-counter scan
locating top-level JSON objects. -/
def braceScan (calls : List ToolCall) (s : Str) : List ToolCall :=
  (s.foldl braceStep { depth := 0, buf := none, calls := calls }).calls

/-- Depth scan used by `parse_xml_tool_call` to find the first complete
`{...}` object in the tail fragment: index one past the closing brace. -/
def braceEndAux : Str → Int → Nat → Option Nat
  | [], _, _ => none
  | c :: rest, depth, i =>
    if c = '{' then braceEndAux rest (depth + 1) (i + 1)
    else if c = '}' then
      let d := depth - 1
      if d = 0 then some (i + 1) else braceEndAux rest d (i + 1)
    else braceEndAux rest depth (i + 1)

/-- Argument extraction of `parse_xml_tool_call`: JSON fragment before
the XML tags; missing/failed pieces default to `{}`. -/
def xmlArgs (s : Str) : Json :=
  match s.findIdx? (· = '{') with
  | none => Json.obj []
  | some bs =>
    let frag := s.drop bs
    match braceEndAux frag 0 0 with
    | none => Json.obj []
    | some endIdx =>
      match parseJsonStr (frag.take endIdx) with
      | some v =>
        match (match v with | .obj f => objLookup ("arguments".toList) f | _ => none) with
        | some a => a
        | none => Json.obj []
      | none => Json.obj []

/-- `ClaWasm::parse_xml_tool_call` (GLM-style fallback). -/
def parseXmlToolCall (s : Str) : Option ToolCall :=
  match rfindSubstr ("<arg_value>".toList) s with
  | none => none
  | some start =>
    let after := s.drop (start + 11)
    let e := (after.findIdx? (· = '<')).getD after.length
    let candidate := trimStr (after.take e)
    if candidate.isEmpty || candidate.contains '{' then none
    else some ⟨candidate, xmlArgs s⟩

/-- `ClaWasm::parse_all_tool_calls`: fenced-block pass, then the
balanced-brace scan (with duplicate checks), then the XML fallback when
nothing was found.  (The unbalanced-brace count at the top of the Rust
function only emits a log line and has no effect on the result.) -/
def parse_all_tool_calls (s : Str) : List ToolCall :=
  let calls := fencedPass (s.length + 1) s
  let calls := braceScan calls s
  if calls.isEmpty then
    match parseXmlToolCall s with
    | some c => [c]
    | none => []
  else calls

/-! ## Security module (`src/security.rs`) -/

/-- `SecurityConfig`. -/
structure SecurityConfig where
  pairing_enabled : Bool
  sandbox_enabled : Bool
  allowed_domains : List Str
  blocked_domains : List Str
  allowed_tools : List Str
  blocked_tools : List Str
  max_tool_calls : Nat
  require_tool_approval : Bool
  workspace_scope : Option Str

/-- `SecurityAction`. -/
inductive SecurityAction where
  | ToolCall (name : Str) (args : Json)
  | FetchUrl (url : Str)
  | SaveData (key : Str)
deriving DecidableEq

/-- `SecurityDecision`. -/
inductive SecurityDecision where
  | Allow
  | Deny (reason : Str)
  | RequireApproval (message : Str)
deriving DecidableEq

/-- `extract_domain`: trim, strip one of the two recognized schemes, take
the text up to the first `/`, strip a trailing `:port`.  Rust `split`
always yields at least one (possibly empty) item, so each `next()?` is
modelled as an always-`some` first-segment computation; the `?`
propagation of the source is kept as `Option.bind`. -/
def splitNext (sep : Char) (s : Str) : Option Str :=
  some (s.takeWhile (· ≠ sep))

def extract_domain (url : Str) : Option Str := do
  let url := trimStr url
  let url :=
    match stripPre ("https://".toList) url with
    | some r => r
    | none =>
      match stripPre ("http://".toList) url with
      | some r => r
      | none => url
  let domain ← splitNext '/' url
  let domain ← splitNext ':' domain
  pure domain

/-- Debug escaping of one string character (ASCII approximation of
Rust's `char::escape_debug`, which the claims only exercise on plain
ASCII). -/
def escDebugChar (c : Char) : Str :=
  if c = '"' then ['\\', '"']
  else if c = '\\' then ['\\', '\\']
  else if c = '\n' then ['\\', 'n']
  else if c = '\r' then ['\\', 'r']
  else if c = '\t' then ['\\', 't']
  else [c]

/-- `format!("{:?}", s)` for a string. -/
def debugStr (s : Str) : Str :=
  '"' :: s.foldr (fun c acc => escDebugChar c ++ acc) ['"']

mutual

def jsonFuel : Json → Nat
  | .null | .bool _ | .num _ | .str _ => 1
  | .arr l => jsonFuelL l + 1
  | .obj f => jsonFuelF f + 1

def jsonFuelL : List Json → Nat
  | [] => 0
  | j :: rest => jsonFuel j + jsonFuelL rest + 1

def jsonFuelF : List (Str × Json) → Nat
  | [] => 0
  | (_, j) :: rest => jsonFuel j + jsonFuelF rest + 1

end

/-- `format!("{:?}", v)` for a `serde_json::Value` (fuel-based so it is
kernel-evaluable; the fuel supplied by `debugAction` always suffices). -/
def debugJsonF : Nat → Json → Str
  | 0, _ => []
  | _ + 1, .null => "Null".toList
  | _ + 1, .bool b => ("Bool(".toList) ++ (if b then "true".toList else "false".toList) ++ [')']
  | _ + 1, .num raw => ("Number(".toList) ++ raw ++ [')']
  | _ + 1, .str s => ("String(".toList) ++ debugStr s ++ [')']
  | f + 1, .arr l =>
    ("Array [".toList) ++ List.intercalate (", ".toList) (l.map (debugJsonF f)) ++ [']']
  | f + 1, .obj fl =>
    ("Object \x7b".toList) ++
      List.intercalate (", ".toList)
        (fl.map (fun kv => debugStr kv.1 ++ (": ".toList) ++ debugJsonF f kv.2)) ++ ['\x7d']

/-- `format!("{:?}", action)` for a `SecurityAction` (derived `Debug`). -/
def debugAction : SecurityAction → Str
  | .ToolCall name args =>
    ("ToolCall \x7b name: ".toList) ++ debugStr name ++ (", args: ".toList) ++
      debugJsonF (jsonFuel args) args ++ (" \x7d".toList)
  | .FetchUrl url => ("FetchUrl \x7b url: ".toList) ++ debugStr url ++ (" \x7d".toList)
  | .SaveData key => ("SaveData \x7b key: ".toList) ++ debugStr key ++ (" \x7d".toList)

/-! ### `DefaultHasher` (SipHash-1-3 with zero keys)

`generate_action_id` hashes the `Debug` string with
`std::collections::hash_map::DefaultHasher`, i.e. SipHash-1-3 keyed with
`(0, 0)`; `Hash for str` feeds the UTF-8 bytes followed by a `0xFF`
terminator byte.  All `u64` arithmetic is `Nat` with explicit
`% 2 ^ 64`. -/

def two64 : Nat := 2 ^ 64

def add64 (a b : Nat) : Nat := (a + b) % two64

def xor64 (a b : Nat) : Nat := (a ^^^ b) % two64

def rotl64 (x r : Nat) : Nat := ((x <<< r) ||| (x >>> (64 - r))) % two64

def sipRound : Nat × Nat × Nat × Nat → Nat × Nat × Nat × Nat := fun (v0, v1, v2, v3) =>
  let v0 := add64 v0 v1
  let v1 := rotl64 v1 13
  let v1 := xor64 v1 v0
  let v0 := rotl64 v0 32
  let v2 := add64 v2 v3
  let v3 := rotl64 v3 16
  let v3 := xor64 v3 v2
  let v0 := add64 v0 v3
  let v3 := rotl64 v3 21
  let v3 := xor64 v3 v0
  let v2 := add64 v2 v1
  let v1 := rotl64 v1 17
  let v1 := xor64 v1 v2
  let v2 := rotl64 v2 32
  (v0, v1, v2, v3)

/-- One message word absorbed with one compression round (SipHash-1-3). -/
def sipCompress (st : Nat × Nat × Nat × Nat) (m : Nat) : Nat × Nat × Nat × Nat :=
  let (v0, v1, v2, v3) := st
  let v3 := xor64 v3 m
  let (v0, v1, v2, v3) := sipRound (v0, v1, v2, v3)
  let v0 := xor64 v0 m
  (v0, v1, v2, v3)

/-- Little-endian word value of a byte list. -/
def leWord (bs : List Nat) : Nat := bs.foldr (fun b acc => b + 256 * acc) 0

/-- Split a byte list into full 8-byte little-endian words plus the tail. -/
def toBlocks : Nat → List Nat → List Nat × List Nat
  | 0, bs => ([], bs)
  | fuel + 1, bs =>
    if bs.length < 8 then ([], bs)
    else
      let w := leWord (bs.take 8)
      let (ws, r) := toBlocks fuel (bs.drop 8)
      (w :: ws, r)

/-- SipHash-1-3 with keys `(0, 0)` over a byte list (`DefaultHasher`
state after `write(bytes)`, then `finish()`). -/
def siphash13 (bytes : List Nat) : Nat :=
  let len := bytes.length
  let (ws, tail) := toBlocks len bytes
  let st0 : Nat × Nat × Nat × Nat :=
    (0x736f6d6570736575, 0x646f72616e646f6d, 0x6c7967656e657261, 0x7465646279746573)
  let st1 := ws.foldl sipCompress st0
  let b := (((len % 256) <<< 56) ||| leWord tail) % two64
  let (v0, v1, v2, v3) := sipCompress st1 b
  let v2 := xor64 v2 0xff
  let (v0, v1, v2, v3) := sipRound (sipRound (sipRound (v0, v1, v2, v3)))
  xor64 (xor64 v0 v1) (xor64 v2 v3)

/-- UTF-8 encoding of one character. -/
def utf8Char (c : Char) : List Nat :=
  let n := c.toNat
  if n < 0x80 then [n]
  else if n < 0x800 then [0xC0 ||| (n >>> 6), 0x80 ||| (n &&& 0x3F)]
  else if n < 0x10000 then
    [0xE0 ||| (n >>> 12), 0x80 ||| ((n >>> 6) &&& 0x3F), 0x80 ||| (n &&& 0x3F)]
  else
    [0xF0 ||| (n >>> 18), 0x80 ||| ((n >>> 12) &&& 0x3F),
     0x80 ||| ((n >>> 6) &&& 0x3F), 0x80 ||| (n &&& 0x3F)]

/-- UTF-8 bytes of a string. -/
def utf8 (s : Str) : List Nat :=
  s.foldr (fun c acc => utf8Char c ++ acc) []

/-- `Hash for str`: the bytes followed by the `0xFF` terminator. -/
def strHashBytes (s : Str) : List Nat := utf8 s ++ [0xff]

/-- Lower-case hex digit. -/
def hexDigitChar (n : Nat) : Char :=
  if n < 10 then Char.ofNat ('0'.toNat + n) else Char.ofNat ('a'.toNat + (n - 10))

/-- `format!("{:x}", n)` digits (empty on zero; 64 hex digits of fuel
cover every `u64`). -/
def hexAux : Nat → Nat → Str
  | 0, _ => []
  | f + 1, n => if n = 0 then [] else hexAux f (n / 16) ++ [hexDigitChar (n % 16)]

/-- `format!("{:x}", n)`. -/
def toHex (n : Nat) : Str := if n = 0 then ['0'] else hexAux 64 n

/-- Value of a lower-case hex digit (decoder used to verify that hex
rendering is injective). -/
def hexVal (c : Char) : Nat :=
  if c ≤ '9' then c.toNat - '0'.toNat else c.toNat - 'a'.toNat + 10

/-- Decode a hex digit string (left fold). -/
def ofHex (s : Str) : Nat := s.foldl (fun acc c => 16 * acc + hexVal c) 0

/-- `SecurityManager::generate_action_id`: `format!("action_{:x}",
hash(format!("{:?}", action)))`. -/
def generate_action_id (a : SecurityAction) : Str :=
  ("action_".toList) ++ toHex (siphash13 (strHashBytes (debugAction a)))

/-- Reason string of the blocked-domain denial. -/
def blockedDomainMsg (domain : Str) : Str :=
  ("Domain '".toList) ++ domain ++ ("' is blocked".toList)

/-- Reason string of the blocked-tool denial. -/
def blockedToolMsg (name : Str) : Str :=
  ("Tool '".toList) ++ name ++ ("' is blocked".toList)

/-- Reason string of the allowlist denial for domains. -/
def notAllowedDomainMsg (domain : Str) : Str :=
  ("Domain '".toList) ++ domain ++ ("' is not in allowlist".toList)

/-- Reason string of the allowlist denial for tools. -/
def notAllowedToolMsg (name : Str) : Str :=
  ("Tool '".toList) ++ name ++ ("' is not in allowlist".toList)

/-- `SecurityManager::check_sandbox`. -/
def check_sandbox (cfg : SecurityConfig) : SecurityAction → Option Str
  | .FetchUrl url =>
    match extract_domain url with
    | some domain =>
      if cfg.blocked_domains.any (fun d => containsStr domain d) then
        some (blockedDomainMsg domain)
      else none
    | none => none
  | .ToolCall name _ =>
    if cfg.blocked_tools.contains name then some (blockedToolMsg name) else none
  | _ => none

/-- `SecurityManager::check_allowlist`. -/
def check_allowlist (cfg : SecurityConfig) : SecurityAction → Option Str
  | .FetchUrl url =>
    match extract_domain url with
    | some domain =>
      if !cfg.allowed_domains.isEmpty &&
          !cfg.allowed_domains.any (fun d => containsStr domain d) then
        some (notAllowedDomainMsg domain)
      else none
    | none => none
  | .ToolCall name _ =>
    if !cfg.allowed_tools.isEmpty && !cfg.allowed_tools.contains name then
      some (notAllowedToolMsg name)
    else none
  | _ => none

/-- `format!("Approval required for: {:?}", action)`. -/
def approvalMsg (a : SecurityAction) : Str :=
  ("Approval required for: ".toList) ++ debugAction a

/-- `SecurityManager::check_action`.  The manager state entering the
decision is its configuration and the `approved_actions` id set
(modelled as a list queried by membership). -/
def check_action (cfg : SecurityConfig) (approved : List Str)
    (action : SecurityAction) : SecurityDecision :=
  match (if cfg.sandbox_enabled then check_sandbox cfg action else none) with
  | some reason => .Deny reason
  | none =>
    match check_allowlist cfg action with
    | some reason => .Deny reason
    | none =>
      if cfg.pairing_enabled && cfg.require_tool_approval then
        if approved.contains (generate_action_id action) then .Allow
        else .RequireApproval (approvalMsg action)
      else .Allow

/-! ## Chat messages and the context trim (`src/chat.rs`, `src/lib.rs`) -/

/-- `Role`. -/
inductive Role where
  | System
  | User
  | Assistant
deriving DecidableEq

/-- `Message`. -/
structure Message where
  role : Role
  content : Str
deriving DecidableEq

/-- `m.content.chars().count()`. -/
def msgLen (m : Message) : Nat := m.content.length

/-- Total content length of a conversation. -/
def totalSize (msgs : List Message) : Nat := (msgs.map msgLen).sum

/-- The newest→oldest scan of the trim: called on the reversed message
list, it skips `System` messages, stops before the accumulated size
would exceed the 80,000-character budget, and keeps the rest in scan
order. -/
def takeRecent : Nat → List Message → List Message
  | _, [] => []
  | size, m :: rest =>
    if m.role = .System then takeRecent size rest
    else if size + msgLen m > 80000 then []
    else m :: takeRecent (size + msgLen m) rest

/-- The context-trim step of `ClaWasm::chat_verbose`: when the
conversation has more than 20 messages or more than 100,000 characters,
rebuild it as all `System` messages followed by the retained recent
messages in chronological order. -/
def trimIfNeeded (msgs : List Message) : List Message :=
  if msgs.length > 20 || totalSize msgs > 100000 then
    let systemMsgs := msgs.filter (fun m => m.role == Role.System)
    let recent := takeRecent 0 msgs.reverse
    systemMsgs ++ recent.reverse
  else msgs

/-! ## The agent loop (`ClaWasm::chat_verbose`) -/

/-- Decimal digits (low-to-high recursion; `n` fuel covers `n`). -/
def natChars : Nat → Nat → Str
  | 0, _ => []
  | f + 1, n => if n = 0 then [] else natChars f (n / 10) ++ [Char.ofNat ('0'.toNat + n % 10)]

/-- Decimal rendering of a `Nat` (as `format!("{}", n)`). -/
def natRepr (n : Nat) : Str := if n = 0 then ['0'] else natChars n n

/-- The `[Part i/n]` batches of a long tool result (800 characters per
batch). -/
def chunkParts : Nat → Str → Nat → Nat → List Str
  | 0, _, _, _ => []
  | fuel + 1, rem, idx, num =>
    if rem.isEmpty then []
    else
      (("[Part ".toList) ++ natRepr idx ++ ['/'] ++ natRepr num ++ ("]\n".toList) ++
        rem.take 800) :: chunkParts fuel (rem.drop 800) (idx + 1) num

/-- The textual result messages produced for one executed tool call:
short results become one `Tool '…' returned:` entry, long results are
split into `[Part i/n]` batches with a header on the first.  The
executor oracle `exec` already folds tool failures into inline text, as
the `Err` arm of the source does. -/
def toolResultsFor (exec : Str → Json → Str) (call : ToolCall) : List Str :=
  let toolResult := exec call.name call.arguments
  let resultLen := toolResult.length
  if resultLen > 800 then
    let num := (resultLen + 800 - 1) / 800
    match chunkParts resultLen toolResult 1 num with
    | [] => []
    | b0 :: rest =>
      (("Tool '".toList) ++ call.name ++ ("' (split into ".toList) ++ natRepr num ++
        (" parts):\n".toList) ++ b0) :: rest
  else [("Tool '".toList) ++ call.name ++ ("' returned:\n".toList) ++ toolResult]

/-- `tool_results.join("\n\n---\n\n")`. -/
def joinSep (xs : List Str) : Str := List.intercalate ("\n\n---\n\n".toList) xs

/-- The tool-use loop of `chat_verbose`.  `fuel` is the number of
remaining iterations (10 at entry); the result is the final response,
the ordered log of every executed call, and the number of
tool-execution iterations performed.  The provider oracle returns
`none` on a provider error, which aborts the turn (`?` in the
source). -/
def chatLoop (provider : List Message → Option Str) (exec : Str → Json → Str) :
    Nat → List Message → Str → List ToolCall → Option (Str × List ToolCall × Nat)
  | 0, _, response, log => some (response, log, 0)
  | fuel + 1, msgs, response, log =>
    let calls := parse_all_tool_calls response
    if calls.isEmpty then some (response, log, 0)
    else
      let results := (calls.map (toolResultsFor exec)).foldr (· ++ ·) []
      let msgs1 := msgs ++ [⟨Role.Assistant, response⟩, ⟨Role.User, joinSep results⟩]
      let msgs2 := trimIfNeeded msgs1
      match provider msgs2 with
      | none => none
      | some resp2 =>
        (chatLoop provider exec fuel msgs2 resp2 (log ++ calls)).map
          (fun r => (r.1, r.2.1, r.2.2 + 1))

/-- One user turn of `chat_verbose`: append the user message, query the
provider, then run the tool loop with the 10-iteration cap. -/
def chatTurn (provider : List Message → Option Str) (exec : Str → Json → Str)
    (history : List Message) (userMsg : Str) : Option (Str × List ToolCall × Nat) :=
  let msgs := history ++ [⟨Role.User, userMsg⟩]
  match provider msgs with
  | none => none
  | some r => chatLoop provider exec 10 msgs r []

/-! ## Memory store (`src/memory.rs`)

`f32` scores are modelled as exact rationals; the cosine similarity
(whose Rust implementation divides by `f32::sqrt` norms) is an explicit
function parameter of the recall model, applied exactly where the source
applies `cosine_similarity`. -/

/-- `MemoryEntry`. -/
structure MemoryEntry where
  id : Str
  content : Str
  embedding : Option (List ℚ)
  metadata : Json
  created_at : Int
  accessed_at : Int
  access_count : Nat
deriving DecidableEq

/-- The `sort_by_key(|e| e.accessed_at)` order. -/
def accLe (a b : MemoryEntry) : Prop := a.accessed_at ≤ b.accessed_at

instance : DecidableRel accLe := fun a b =>
  inferInstanceAs (Decidable (a.accessed_at ≤ b.accessed_at))

instance : IsTotal MemoryEntry accLe := ⟨fun a b => Int.le_total a.accessed_at b.accessed_at⟩

instance : IsTrans MemoryEntry accLe := ⟨fun _ _ _ h1 h2 => le_trans h1 h2⟩

/-- `MemorySystem::save`, restricted to its in-memory entry-list effect
(id generation, embedding computation and persistence are external
side effects that do not touch the list shape).  Rust's stable
`sort_by_key` is modelled by the stable `insertionSort`; `Vec::remove(0)`
on an empty vector panics, modelled as `none`. -/
def saveEntry (maxEntries : Nat) (entries : List MemoryEntry) (newEntry : MemoryEntry) :
    Option (List MemoryEntry) :=
  if entries.length ≥ maxEntries then
    match List.insertionSort accLe entries with
    | [] => none
    | _ :: rest => some (rest ++ [newEntry])
  else some (entries ++ [newEntry])

/-- `str::split_whitespace` (fuel-driven; `length` fuel suffices). -/
def splitWsF : Nat → Str → List Str
  | 0, _ => []
  | fuel + 1, s =>
    match s with
    | [] => []
    | c :: rest =>
      if isWsChar c then splitWsF fuel rest
      else
        (c :: rest.takeWhile (fun x => !isWsChar x)) ::
          splitWsF fuel (rest.dropWhile (fun x => !isWsChar x))

def splitWhitespace (s : Str) : List Str := splitWsF s.length s

/-- The stop-word list of `extract_keywords`. -/
def stopWords : List Str :=
  [("the".toList), ("a".toList), ("an".toList), ("is".toList), ("are".toList),
   ("was".toList), ("were".toList), ("be".toList), ("been".toList), ("being".toList),
   ("have".toList), ("has".toList), ("had".toList), ("do".toList), ("does".toList),
   ("did".toList), ("will".toList), ("would".toList), ("could".toList),
   ("should".toList), ("may".toList), ("might".toList), ("must".toList),
   ("shall".toList), ("can".toList), ("need".toList), ("dare".toList),
   ("ought".toList), ("used".toList), ("to".toList), ("of".toList), ("in".toList),
   ("for".toList), ("on".toList), ("with".toList), ("at".toList), ("by".toList),
   ("from".toList), ("as".toList), ("into".toList), ("through".toList),
   ("during".toList), ("before".toList), ("after".toList), ("above".toList),
   ("below".toList), ("between".toList), ("and".toList), ("but".toList),
   ("or".toList), ("nor".toList), ("so".toList), ("yet".toList), ("both".toList),
   ("either".toList), ("neither".toList), ("not".toList), ("only".toList),
   ("own".toList), ("same".toList), ("than".toList), ("too".toList),
   ("very".toList), ("just".toList)]

/-- `extract_keywords`: lowercase, split on whitespace, drop short and
stop words, strip non-alphanumeric characters, drop empties (ASCII
model of `to_lowercase`/`is_alphanumeric`; Rust's byte length equals the
character count on these ASCII tokens). -/
def extract_keywords (text : Str) : List Str :=
  (((splitWhitespace (text.map Char.toLower)).filter
      (fun w => w.length > 2 && !stopWords.contains w)).map
    (fun w => w.filter Char.isAlphanum)).filter (fun w => !w.isEmpty)

/-- `jaccard_similarity` over the deduplicated keyword sets. -/
def jaccard_similarity (a b : List Str) : ℚ :=
  if a.isEmpty && b.isEmpty then 1
  else
    let setA := a.dedup
    let setB := b.dedup
    let inter := (setA.filter (fun x => setB.contains x)).length
    let union := (setA ++ setB.filter (fun x => !setA.contains x)).length
    if union > 0 then (inter : ℚ) / (union : ℚ) else 0

/-- `MemorySearchResult`. -/
structure MemorySearchResult where
  entry : MemoryEntry
  score : ℚ
deriving DecidableEq

/-- The score computed by `MemorySystem::recall` for one entry: the
vector term is added only when both the query embedding and the entry
embedding are present, the keyword term is always added, and the sum is
boosted by `1 + 0.01 * access_count`. -/
def recallScore (cosineSim : List ℚ → List ℚ → ℚ) (vw kw : ℚ) (qEmb : Option (List ℚ))
    (queryKeywords : List Str) (e : MemoryEntry) : ℚ :=
  let score : ℚ := 0
  let score :=
    match qEmb, e.embedding with
    | some q, some emb => score + cosineSim q emb * vw
    | _, _ => score
  let score := score + jaccard_similarity queryKeywords (extract_keywords e.content) * kw
  score * (1 + (e.access_count : ℚ) * (1 / 100))

/-- The scored result list of `recall`, in storage order. -/
def recallScored (cosineSim : List ℚ → List ℚ → ℚ) (vw kw : ℚ) (qEmb : Option (List ℚ))
    (query : Str) (entries : List MemoryEntry) : List MemorySearchResult :=
  let queryKeywords := extract_keywords query
  entries.map (fun e => ⟨e, recallScore cosineSim vw kw qEmb queryKeywords e⟩)

/-- The comparator of `recall`'s sort: descending by score.  (`ℚ` is a
total order, so `partial_cmp(..).unwrap_or(Equal)` is the plain
comparison, and Rust's stable `sort_by` is the stable
`insertionSort`.) -/
def scoreDesc (a b : MemorySearchResult) : Prop := b.score ≤ a.score

instance : DecidableRel scoreDesc := fun a b =>
  inferInstanceAs (Decidable (b.score ≤ a.score))

instance : IsTotal MemorySearchResult scoreDesc := ⟨fun a b => le_total b.score a.score⟩

instance : IsTrans MemorySearchResult scoreDesc := ⟨fun _ _ _ h1 h2 => le_trans h2 h1⟩

/-- The sorted result list of `recall` (before `take limit`). -/
def recallRanked (cosineSim : List ℚ → List ℚ → ℚ) (vw kw : ℚ) (qEmb : Option (List ℚ))
    (query : Str) (entries : List MemoryEntry) : List MemorySearchResult :=
  List.insertionSort scoreDesc (recallScored cosineSim vw kw qEmb query entries)

/-- `MemorySystem::recall`'s returned list (the access-count refresh that
follows mutates the store, not the already-built results). -/
def recallModel (cosineSim : List ℚ → List ℚ → ℚ) (vw kw : ℚ) (qEmb : Option (List ℚ))
    (query : Str) (entries : List MemoryEntry) (limit : Nat) : List MemorySearchResult :=
  (recallRanked cosineSim vw kw qEmb query entries).take limit

/-! ## Auxiliary notions used by the theorems -/

/-- No two calls of the list agree in both name and arguments. -/
abbrev noDupCalls (l : List ToolCall) : Prop :=
  l.Pairwise (fun a b => ¬(a.name = b.name ∧ a.arguments = b.arguments))

/-- `NoDupFrom base l`: every element of `l` differs (as a
`(name, arguments)` pair) from everything before it, counting `base`. -/
def NoDupFrom : List ToolCall → List ToolCall → Prop
  | _, [] => True
  | base, c :: rest => (∀ c' ∈ base, sameCall c' c = false) ∧ NoDupFrom (base ++ [c]) rest

/-- Fixed-width binary encoding of a number as an `a`/`b` string (used to
build arbitrarily many pairwise distinct URLs). -/
def bitChars : Nat → Nat → Str
  | 0, _ => []
  | n + 1, v => (if v % 2 = 1 then 'b' else 'a') :: bitChars n (v / 2)

/-- A configuration whose `allowed_domains` and `blocked_domains` share
the entry `evil.com`. -/
def cfgBoth : SecurityConfig :=
  ⟨true, true, [("evil.com".toList)], [("evil.com".toList)], [], [], 5, false, none⟩

/-- A configuration with a non-empty domain allowlist only. -/
def cfgAllowlist : SecurityConfig :=
  ⟨true, true, [("example.com".toList)], [], [], [], 5, false, none⟩

/-- Memory entry `E1` of the spec's Scenario B (`accessed_at = 10`). -/
def entE1 : MemoryEntry := ⟨("e1".toList), [], none, Json.null, 10, 10, 0⟩

/-- Memory entry `E2` of the spec's Scenario B (`accessed_at = 20`). -/
def entE2 : MemoryEntry := ⟨("e2".toList), [], none, Json.null, 20, 20, 0⟩

/-- Memory entry `E3` of the spec's Scenario B (the newly saved entry). -/
def entE3 : MemoryEntry := ⟨("e3".toList), [], none, Json.null, 30, 30, 0⟩

/-- A conversation of 21 small user messages (over the 20-message trim
trigger). -/
def msgs21 : List Message := List.replicate 21 ⟨Role.User, ['x']⟩

/-- A stored memory entry with empty content and no prior access. -/
def entC6 : MemoryEntry := ⟨("m1".toList), [], none, Json.null, 0, 0, 0⟩

/-- The search result `recall` produces for `entC6` under the empty
query with weights `7`/`3`: `jaccard(∅, ∅) = 1`, so the score is
`(7·0 + 3·1) · (1 + 0·0.01) = 3`. -/
def resC6 : MemorySearchResult := ⟨entC6, 3⟩

/-- A model reply consisting of two identical fenced tool blocks. -/
def dupFencedText : Str :=
  (("```tool\n\x7b\"name\": \"a\", \"arguments\": \x7b\x7d\x7d\n```\n" ++
    "```tool\n\x7b\"name\": \"a\", \"arguments\": \x7b\x7d\x7d\n```").toList)

/-- A model reply consisting of one fenced tool block. -/
def toolTextC4 : Str :=
  ("```tool\n\x7b\"name\": \"t1\", \"arguments\": \x7b\x7d\x7d\n```".toList)

/-- The tool call encoded by `toolTextC4`. -/
def callC4 : ToolCall := ⟨("t1".toList), Json.obj []⟩

/-- A provider oracle that always answers with the fenced tool block. -/
def providerC4 : List Message → Option Str := fun _ => some toolTextC4

/-- A tool-executor oracle with a constant short result. -/
def execC4 : Str → Json → Str := fun _ _ => ("ok".toList)

/-! ### Rendering of model texts containing fenced tool blocks

The following definitions build, for an arbitrary list of tool calls and
separator texts, a model reply in the documented fenced-block encoding;
the C7 theorem states that `parse_all_tool_calls` recovers exactly the
encoded calls. -/

mutual

/-- Canonical JSON rendering (objects in their normalized key order). -/
def renderJson : Json → Str
  | .null => ("null".toList)
  | .bool true => ("true".toList)
  | .bool false => ("false".toList)
  | .num raw => raw
  | .str s => '"' :: (s ++ ['"'])
  | .arr [] => ("[]".toList)
  | .arr (e :: es) => '[' :: (renderJson e ++ renderArrTail es ++ [']'])
  | .obj [] => ['{', '}']
  | .obj (f :: fs) => '{' :: (renderField f ++ renderFieldsTail fs ++ ['}'])

def renderField : Str × Json → Str
  | (k, v) => '"' :: (k ++ ['"', ':'] ++ renderJson v)

def renderArrTail : List Json → Str
  | [] => []
  | e :: es => ',' :: (renderJson e ++ renderArrTail es)

def renderFieldsTail : List (Str × Json) → Str
  | [] => []
  | f :: fs => ',' :: (renderField f ++ renderFieldsTail fs)

end

/-- Characters allowed inside rendered strings and keys: inert for the
string scanner, the brace counter and the fence search. -/
def safeChar (c : Char) : Bool :=
  c.isAlphanum || c = ' ' || c = '_' || c = '-' || c = '.'

/-- Strict sortedness of an object's keys (the normalized form produced
by the parser). -/
def keysSortedF : List (Str × Json) → Bool
  | [] => true
  | [_] => true
  | a :: b :: r => keyLt a.1 b.1 && keysSortedF (b :: r)

mutual

/-- JSON values whose rendering round-trips: strings/keys over
`safeChar`, plain digit numerals, objects in strictly sorted key
order. -/
def safeJson : Json → Bool
  | .null => true
  | .bool _ => true
  | .num raw => !raw.isEmpty && raw.all Char.isDigit
  | .str s => s.all safeChar
  | .arr l => safeJsonL l
  | .obj fs => keysSortedF fs && safeFieldsF fs

def safeJsonL : List Json → Bool
  | [] => true
  | j :: rest => safeJson j && safeJsonL rest

def safeFieldsF : List (Str × Json) → Bool
  | [] => true
  | (k, v) :: rest => k.all safeChar && safeJson v && safeFieldsF rest

end

/-- A tool call with safe name and arguments. -/
def SafeCall (c : ToolCall) : Bool :=
  c.name.all safeChar && safeJson c.arguments

/-- Separator text between fenced blocks: no backticks (so fences cannot
be forged), no braces (inert for the brace scan), no `<` (inert for the
XML fallback), and not starting with `tool` (so a closing fence is never
read as an opening marker). -/
def SafeSep (s : Str) : Bool :=
  s.all (fun c => !(c = '`') && !(c = '{') && !(c = '}') && !(c = '<')) &&
    !(("tool".toList).isPrefixOf s)

/-- The JSON document of one tool call (fields in normalized order). -/
def renderToolJson (c : ToolCall) : Str :=
  renderJson (Json.obj [(("arguments".toList), c.arguments),
    (("name".toList), Json.str c.name)])

/-- One fenced tool block. -/
def renderBlock (c : ToolCall) : Str :=
  ("```tool\n".toList) ++ renderToolJson c ++ ("\n```".toList)

/-- A model text `sep₀ B₁ sep₁ B₂ sep₂ … Bₙ sepₙ` of fenced blocks and
separators. -/
def assemble : Str → List (ToolCall × Str) → Str
  | sep0, [] => sep0
  | sep0, (c, sep) :: rest => sep0 ++ renderBlock c ++ assemble sep rest

/-- `pat` occurs in `s` at position `i`. -/
def occursAt (pat s : Str) (i : Nat) : Prop :=
  pat.isPrefixOf (s.drop i) = true

/-- Admissible continuation after a rendered numeral (so the numeral
scan stops exactly at its end). -/
def RestOk (rest : Str) : Prop :=
  rest = [] ∨ ∃ c t, rest = c :: t ∧ isNumChar c = false

/-- Brace contribution of one character. -/
def charDelta (c : Char) : Int :=
  if c = '{' then 1 else if c = '}' then -1 else 0

/-- Brace count (opens minus closes) of a string. -/
def braceDelta : Str → Int
  | [] => 0
  | c :: rest => charDelta c + braceDelta rest

/-- Balanced brace structure with no prefix dipping below zero. -/
def Balanced (s : Str) : Prop :=
  braceDelta s = 0 ∧ ∀ n : Nat, 0 ≤ braceDelta (s.take n)

/-- A post-eviction store whose storage order (`C` before `A`) differs
from the insertion order (`A` before `C`); all contents are empty so all
recall scores tie. -/
def entA10 : MemoryEntry := ⟨("a".toList), [], none, Json.null, 30, 30, 0⟩

def entB10 : MemoryEntry := ⟨("b".toList), [], none, Json.null, 10, 10, 0⟩

def entC10 : MemoryEntry := ⟨("c".toList), [], none, Json.null, 20, 20, 0⟩

def entN10 : MemoryEntry := ⟨("n".toList), [], none, Json.null, 40, 40, 0⟩

end WebClaw

/-! # Theorems -/

namespace WebClaw

/-- **C1.** For every `SecurityConfig` with `sandbox_enabled = true` and
every `FetchUrl` action whose extracted domain matches (by substring
containment) an entry of `blocked_domains` and also an entry of
`allowed_domains`, `check_action` returns `Deny` — with the sandbox's
blocked-domain reason, showing the sandbox check fires before the
allowlist check (first match wins). -/
theorem checkAction_blocked_and_allowed_denied
    (cfg : SecurityConfig) (approved : List Str) (url domain : Str)
    (hsb : cfg.sandbox_enabled = true)
    (hdom : extract_domain url = some domain)
    (hblocked : ∃ b ∈ cfg.blocked_domains, containsStr domain b = true)
    (_hallowed : ∃ a ∈ cfg.allowed_domains, containsStr domain a = true) :
    check_action cfg approved (SecurityAction.FetchUrl url) =
      SecurityDecision.Deny (blockedDomainMsg domain) := by
  have hany : cfg.blocked_domains.any (fun d => containsStr domain d) = true := by
    rw [List.any_eq_true]
    obtain ⟨b, hb, hc⟩ := hblocked
    exact ⟨b, hb, hc⟩
  simp [check_action, check_sandbox, hsb, hdom, hany]

/-- Witness for C1 at a concrete blocked-and-allowed domain. -/
theorem checkAction_blocked_and_allowed_denied_witness :
    cfgBoth.sandbox_enabled = true ∧
    extract_domain ("https://evil.com/x".toList) = some ("evil.com".toList) ∧
    (∃ b ∈ cfgBoth.blocked_domains, containsStr ("evil.com".toList) b = true) ∧
    (∃ a ∈ cfgBoth.allowed_domains, containsStr ("evil.com".toList) a = true) ∧
    check_action cfgBoth [] (SecurityAction.FetchUrl ("https://evil.com/x".toList)) =
      SecurityDecision.Deny (blockedDomainMsg ("evil.com".toList)) :=
  ⟨rfl, by decide, by decide, by decide,
   checkAction_blocked_and_allowed_denied cfgBoth [] _ _ rfl (by decide) (by decide)
     (by decide)⟩

/-- **C9, counterexample.** The claim asserts that some URL strings yield
no domain; in fact `extract_domain` returns `some` on every input (Rust's
`split(..).next()` always yields a first, possibly empty, segment), so
the no-domain bypass branch of the domain checks is unreachable. -/
theorem extract_domain_never_none : ¬ ∃ url : Str, extract_domain url = none := by
  rintro ⟨url, h⟩
  have hd : ∃ d, extract_domain url = some d := ⟨_, rfl⟩
  obtain ⟨d, hd⟩ := hd
  rw [hd] at h
  exact Option.noConfusion h

/-- **C9, amended.** Domain extraction strips one of exactly two
recognized URL schemes, takes the text up to the first path separator and
strips a trailing port; it yields a (possibly empty) domain for *every*
URL string, so no `FetchUrl` action ever bypasses the domain-based
checks through failed extraction — e.g. the unparseable URL `""` is
denied by a non-empty allowlist rather than bypassing it. -/
theorem extract_domain_total :
    (∀ url : Str, ∃ d, extract_domain url = some d) ∧
    extract_domain ("https://example.com/path".toList) = some ("example.com".toList) ∧
    extract_domain ("http://sub.example.com:8080/path".toList) =
      some ("sub.example.com".toList) ∧
    extract_domain ("example.com".toList) = some ("example.com".toList) ∧
    check_action cfgAllowlist [] (SecurityAction.FetchUrl []) =
      SecurityDecision.Deny (notAllowedDomainMsg []) :=
  ⟨fun _ => ⟨_, rfl⟩, by decide, by decide, by decide, by decide⟩

/-- **C5.** When `save` runs while the store holds `max_entries` entries
(`max_entries ≥ 1`, so the eviction does not panic), an entry with the
oldest `accessed_at` is evicted before the new entry is stored: the new
list again has exactly `max_entries` entries and is, together with the
evicted entry, a permutation of the old entries plus the new one; and in
general a `save` that returns never grows the store beyond
`max_entries`. -/
theorem saveEntry_evicts_oldest :
    (∀ (maxEntries : Nat) (entries : List MemoryEntry) (newEntry : MemoryEntry),
      entries.length = maxEntries → 0 < maxEntries →
      ∃ evicted l', saveEntry maxEntries entries newEntry = some l' ∧
        l'.length = maxEntries ∧ evicted ∈ entries ∧
        (∀ e ∈ entries, evicted.accessed_at ≤ e.accessed_at) ∧
        List.Perm (evicted :: l') (newEntry :: entries)) ∧
    (∀ (maxEntries : Nat) (entries : List MemoryEntry) (newEntry : MemoryEntry)
        (l' : List MemoryEntry),
      entries.length ≤ maxEntries → saveEntry maxEntries entries newEntry = some l' →
      l'.length ≤ maxEntries) := by
  constructor
  · intro m entries newEntry hlen hpos
    have hperm : List.Perm (List.insertionSort accLe entries) entries :=
      List.perm_insertionSort _ _
    have hsorted : List.Sorted accLe (List.insertionSort accLe entries) :=
      List.sorted_insertionSort _ _
    cases hs : List.insertionSort accLe entries with
    | nil =>
      exfalso
      have := hperm.length_eq
      rw [hs, hlen] at this
      simp at this
      omega
    | cons e rest =>
      have hlen' : rest.length + 1 = m := by
        have := hperm.length_eq
        rw [hs, hlen] at this
        simpa using this
      refine ⟨e, rest ++ [newEntry], ?_, ?_, ?_, ?_, ?_⟩
      · simp [saveEntry, hlen, hs]
      · simp [hlen']
      · exact hperm.subset (hs ▸ List.mem_cons_self e rest)
      · intro x hx
        have hx' : x ∈ e :: rest := hs ▸ hperm.mem_iff.mpr hx
        rcases List.mem_cons.mp hx' with h | h
        · rw [h]
        · rw [hs] at hsorted
          exact (List.sorted_cons.mp hsorted).1 x h
      · have h1 : e :: (rest ++ [newEntry]) = (e :: rest) ++ [newEntry] := rfl
        rw [h1]
        exact ((hs ▸ hperm).append_right [newEntry]).trans
          (List.perm_append_singleton newEntry entries)
  · intro m entries newEntry l' hle hsave
    unfold saveEntry at hsave
    by_cases hc : entries.length ≥ m
    · rw [if_pos hc] at hsave
      cases hs : List.insertionSort accLe entries with
      | nil => rw [hs] at hsave; exact Option.noConfusion hsave
      | cons e rest =>
        rw [hs] at hsave
        have hl : l' = rest ++ [newEntry] := (Option.some.inj hsave).symm
        have hlen' : rest.length + 1 = entries.length := by
          have := (List.perm_insertionSort accLe entries).length_eq
          rw [hs] at this
          simpa using this
        rw [hl]
        simp only [List.length_append, List.length_singleton]
        omega
    · rw [if_neg hc] at hsave
      have hl : l' = entries ++ [newEntry] := (Option.some.inj hsave).symm
      rw [hl]
      simp only [List.length_append, List.length_singleton]
      omega

/-- The scan keeps the accumulated size within the 80,000 budget (or
keeps nothing). -/
theorem takeRecent_budget (acc : Nat) (l : List Message) :
    acc + totalSize (takeRecent acc l) ≤ 80000 ∨ takeRecent acc l = [] := by
  induction l generalizing acc with
  | nil => right; rfl
  | cons m rest ih =>
    rw [takeRecent]
    by_cases hsys : m.role = Role.System
    · rw [if_pos hsys]; exact ih acc
    · rw [if_neg hsys]
      by_cases hover : acc + msgLen m > 80000
      · rw [if_pos hover]; right; rfl
      · rw [if_neg hover]
        rcases ih (acc + msgLen m) with h | h
        · left; simp only [totalSize, List.map_cons, List.sum_cons] at h ⊢; omega
        · left; rw [h]; simp only [totalSize, List.map_cons, List.map_nil,
            List.sum_cons, List.sum_nil]; omega

/-- The scan result is a prefix of the non-`System` messages of its
input. -/
theorem takeRecent_front (acc : Nat) (l : List Message) :
    (takeRecent acc l) <+: (l.filter (fun m => !(m.role == Role.System))) := by
  induction l generalizing acc with
  | nil => exact List.nil_prefix
  | cons m rest ih =>
    rw [takeRecent, List.filter_cons]
    by_cases hsys : m.role = Role.System
    · rw [if_pos hsys]
      have : (!(m.role == Role.System)) = false := by simp [hsys]
      rw [this]
      simpa using ih acc
    · have hb : (!(m.role == Role.System)) = true := by simp [hsys]
      rw [if_neg hsys, hb]
      by_cases hover : acc + msgLen m > 80000
      · rw [if_pos hover]; exact List.nil_prefix
      · rw [if_neg hover]
        simp only [if_true]
        obtain ⟨t, ht⟩ := ih (acc + msgLen m)
        exact ⟨t, by rw [List.cons_append, ht]⟩

/-- The scan stops at the first message that would exceed the budget (or
exhausts the non-`System` messages). -/
theorem takeRecent_maximal (acc : Nat) (l : List Message) :
    takeRecent acc l = l.filter (fun m => !(m.role == Role.System)) ∨
    ∃ dropped rest2, l.filter (fun m => !(m.role == Role.System)) =
        takeRecent acc l ++ dropped :: rest2 ∧
      acc + totalSize (takeRecent acc l) + msgLen dropped > 80000 := by
  induction l generalizing acc with
  | nil => left; rfl
  | cons m rest ih =>
    rw [takeRecent, List.filter_cons]
    by_cases hsys : m.role = Role.System
    · have : (!(m.role == Role.System)) = false := by simp [hsys]
      rw [if_pos hsys, this]
      simpa using ih acc
    · have hb : (!(m.role == Role.System)) = true := by simp [hsys]
      rw [if_neg hsys, hb]
      simp only [if_true]
      by_cases hover : acc + msgLen m > 80000
      · rw [if_pos hover]
        right
        exact ⟨m, rest.filter (fun m => !(m.role == Role.System)), by simp,
          by simpa [totalSize] using hover⟩
      · rw [if_neg hover]
        rcases ih (acc + msgLen m) with h | ⟨d, r2, heq, hov⟩
        · left; rw [h]
        · right
          refine ⟨d, r2, by rw [heq]; rfl, ?_⟩
          simp only [totalSize, List.map_cons, List.sum_cons] at hov ⊢
          omega

/-- No `System` message survives the scan. -/
theorem takeRecent_no_system (acc : Nat) (l : List Message) :
    ∀ m ∈ takeRecent acc l, (m.role == Role.System) = false := by
  intro m hm
  have := (takeRecent_front acc l).subset hm
  simpa using (List.mem_filter.mp this).2

/-- **C2.** When the trim trigger holds (more than 20 messages or more
than 100,000 characters), the rebuilt conversation keeps every original
`System` message (in order), its non-`System` content totals at most
80,000 characters, the retained non-`System` messages form a suffix of
the original non-`System` sequence (so chronological order is preserved
and the oldest messages are dropped first), and the retained suffix is
maximal: either everything fits, or the next older message would break
the budget. -/
theorem trimIfNeeded_spec (msgs : List Message)
    (htrig : msgs.length > 20 ∨ totalSize msgs > 100000) :
    (trimIfNeeded msgs).filter (fun m => m.role == Role.System) =
      msgs.filter (fun m => m.role == Role.System) ∧
    totalSize ((trimIfNeeded msgs).filter (fun m => !(m.role == Role.System))) ≤ 80000 ∧
    ((trimIfNeeded msgs).filter (fun m => !(m.role == Role.System))) <:+
      (msgs.filter (fun m => !(m.role == Role.System))) ∧
    ((trimIfNeeded msgs).filter (fun m => !(m.role == Role.System)) =
        msgs.filter (fun m => !(m.role == Role.System)) ∨
      ∃ pre dropped, msgs.filter (fun m => !(m.role == Role.System)) =
          pre ++ dropped ::
            ((trimIfNeeded msgs).filter (fun m => !(m.role == Role.System))) ∧
        msgLen dropped +
          totalSize ((trimIfNeeded msgs).filter (fun m => !(m.role == Role.System)))
          > 80000) := by
  have hcond : (decide (msgs.length > 20) || decide (totalSize msgs > 100000)) = true := by
    rcases htrig with h | h <;> simp [h]
  have ht : trimIfNeeded msgs = msgs.filter (fun m => m.role == Role.System) ++
      (takeRecent 0 msgs.reverse).reverse := by
    unfold trimIfNeeded
    rw [hcond]
    simp
  have hRmem : ∀ m ∈ (takeRecent 0 msgs.reverse).reverse, (m.role == Role.System) = false := by
    intro m hm
    exact takeRecent_no_system 0 msgs.reverse m (List.mem_reverse.mp hm)
  have hSmem : ∀ m ∈ msgs.filter (fun m => m.role == Role.System),
      (m.role == Role.System) = true := fun m hm => (List.mem_filter.mp hm).2
  have hns : (trimIfNeeded msgs).filter (fun m => !(m.role == Role.System)) =
      (takeRecent 0 msgs.reverse).reverse := by
    rw [ht, List.filter_append]
    have h1 : (msgs.filter (fun m => m.role == Role.System)).filter
        (fun m => !(m.role == Role.System)) = [] := by
      rw [List.filter_eq_nil_iff]
      intro m hm
      simp [hSmem m hm]
    have h2 : ((takeRecent 0 msgs.reverse).reverse).filter
        (fun m => !(m.role == Role.System)) = (takeRecent 0 msgs.reverse).reverse := by
      rw [List.filter_eq_self]
      intro m hm
      simp [hRmem m hm]
    rw [h1, h2, List.nil_append]
  have hsizeR : totalSize ((takeRecent 0 msgs.reverse).reverse) =
      totalSize (takeRecent 0 msgs.reverse) := by
    simp [totalSize, List.map_reverse, List.sum_reverse]
  refine ⟨?_, ?_, ?_, ?_⟩
  · rw [ht, List.filter_append]
    have h1 : (msgs.filter (fun m => m.role == Role.System)).filter
        (fun m => m.role == Role.System) = msgs.filter (fun m => m.role == Role.System) :=
      List.filter_eq_self.mpr hSmem
    have h2 : ((takeRecent 0 msgs.reverse).reverse).filter
        (fun m => m.role == Role.System) = [] := by
      rw [List.filter_eq_nil_iff]
      intro m hm
      simp [hRmem m hm]
    rw [h1, h2, List.append_nil]
  · rw [hns, hsizeR]
    rcases takeRecent_budget 0 msgs.reverse with h | h
    · omega
    · rw [h]; simp [totalSize]
  · rw [hns]
    have hpre : takeRecent 0 msgs.reverse <+:
        (msgs.filter (fun m => !(m.role == Role.System))).reverse := by
      have := takeRecent_front 0 msgs.reverse
      rwa [List.filter_reverse] at this
    exact List.reverse_prefix.mp (by rwa [List.reverse_reverse])
  · rw [hns]
    rcases takeRecent_maximal 0 msgs.reverse with h | ⟨d, r2, heq, hov⟩
    · left
      rw [List.filter_reverse] at h
      rw [h, List.reverse_reverse]
    · right
      refine ⟨r2.reverse, d, ?_, ?_⟩
      · rw [List.filter_reverse] at heq
        have := congrArg List.reverse heq
        rw [List.reverse_reverse] at this
        rw [this]
        simp [List.reverse_append]
      · rw [hsizeR]; omega

/-- Witness for C2 at a 21-message conversation (over the message-count
trigger). -/
theorem trimIfNeeded_spec_witness :
    (msgs21.length > 20 ∨ totalSize msgs21 > 100000) ∧
    ((trimIfNeeded msgs21).filter (fun m => m.role == Role.System) =
        msgs21.filter (fun m => m.role == Role.System) ∧
      totalSize ((trimIfNeeded msgs21).filter (fun m => !(m.role == Role.System)))
        ≤ 80000 ∧
      ((trimIfNeeded msgs21).filter (fun m => !(m.role == Role.System))) <:+
        (msgs21.filter (fun m => !(m.role == Role.System))) ∧
      ((trimIfNeeded msgs21).filter (fun m => !(m.role == Role.System)) =
          msgs21.filter (fun m => !(m.role == Role.System)) ∨
        ∃ pre dropped, msgs21.filter (fun m => !(m.role == Role.System)) =
            pre ++ dropped ::
              ((trimIfNeeded msgs21).filter (fun m => !(m.role == Role.System))) ∧
          msgLen dropped +
            totalSize ((trimIfNeeded msgs21).filter (fun m => !(m.role == Role.System)))
            > 80000)) :=
  ⟨Or.inl (by decide), trimIfNeeded_spec msgs21 (Or.inl (by decide))⟩

/-- The tool loop executes at most `fuel` tool iterations, and a final
response that still parses to tool calls is only possible when the fuel
was exhausted. -/
theorem chatLoop_iterations (provider : List Message → Option Str)
    (exec : Str → Json → Str) :
    ∀ (fuel : Nat) (msgs : List Message) (resp : Str) (log : List ToolCall)
      (r : Str) (l : List ToolCall) (n : Nat),
      chatLoop provider exec fuel msgs resp log = some (r, l, n) →
      n ≤ fuel ∧ (parse_all_tool_calls r ≠ [] → n = fuel) := by
  intro fuel
  induction fuel with
  | zero =>
    intro msgs resp log r l n h
    rw [chatLoop] at h
    obtain ⟨h1, h2, h3⟩ : resp = r ∧ log = l ∧ 0 = n := by simpa using h
    exact ⟨h3 ▸ le_refl 0, fun _ => h3.symm⟩
  | succ fuel ih =>
    intro msgs resp log r l n h
    rw [chatLoop] at h
    dsimp only at h
    by_cases hc : (parse_all_tool_calls resp).isEmpty
    · rw [if_pos hc] at h
      obtain ⟨h1, h2, h3⟩ : resp = r ∧ log = l ∧ 0 = n := by simpa using h
      refine ⟨h3 ▸ Nat.zero_le _, fun hr => absurd ?_ hr⟩
      rw [← h1]
      exact List.isEmpty_iff.mp hc
    · rw [if_neg hc] at h
      cases hp : provider (trimIfNeeded (msgs ++
          [⟨Role.Assistant, resp⟩,
           ⟨Role.User, joinSep (((parse_all_tool_calls resp).map
             (toolResultsFor exec)).foldr (· ++ ·) [])⟩])) with
      | none => rw [hp] at h; exact Option.noConfusion h
      | some resp2 =>
        rw [hp] at h
        obtain ⟨⟨r', l', n'⟩, hx, hf⟩ := Option.map_eq_some'.mp h
        obtain ⟨hr', hl', hn'⟩ : r' = r ∧ l' = l ∧ n' + 1 = n := by
          simpa using hf
        obtain ⟨ihn, ihp⟩ := ih _ _ _ r' l' n' hx
        constructor
        · omega
        · intro hparse
          have : n' = fuel := ihp (hr' ▸ hparse)
          omega

/-- **C4.** Every user turn performs at most 10 tool-execution
iterations; when the returned final answer still contains tool-call
syntax (it parses to a non-empty call list), the turn necessarily
exhausted all 10 iterations — the last raw model response is returned
as-is. -/
theorem chatTurn_iteration_cap (provider : List Message → Option Str)
    (exec : Str → Json → Str) (history : List Message) (userMsg : Str)
    (r : Str) (log : List ToolCall) (n : Nat)
    (h : chatTurn provider exec history userMsg = some (r, log, n)) :
    n ≤ 10 ∧ (parse_all_tool_calls r ≠ [] → n = 10) := by
  unfold chatTurn at h
  dsimp only at h
  cases hp : provider (history ++ [⟨Role.User, userMsg⟩]) with
  | none => rw [hp] at h; exact Option.noConfusion h
  | some r0 =>
    rw [hp] at h
    exact chatLoop_iterations provider exec 10 _ r0 [] r log n h

set_option maxRecDepth 100000 in
/-- Witness for C4: a provider that always replies with a fenced tool
block drives the loop through all 10 iterations, and the turn returns
the raw tool-calling text. -/
theorem chatTurn_iteration_cap_witness :
    chatTurn providerC4 execC4 [] ("go".toList) =
      some (toolTextC4, List.replicate 10 callC4, 10) ∧
    parse_all_tool_calls toolTextC4 ≠ [] ∧
    10 ≤ 10 ∧ (parse_all_tool_calls toolTextC4 ≠ [] → 10 = 10) := by
  have h : chatTurn providerC4 execC4 [] ("go".toList) =
      some (toolTextC4, List.replicate 10 callC4, 10) := by decide
  refine ⟨h, by decide, ?_, ?_⟩
  · exact (chatTurn_iteration_cap providerC4 execC4 [] ("go".toList) _ _ _ h).1
  · exact (chatTurn_iteration_cap providerC4 execC4 [] ("go".toList) _ _ _ h).2

/-- Inserting an element whose score differs from `k` does not change
the score-`k` filter. -/
theorem filter_orderedInsert_ne (x : MemorySearchResult) (l : List MemorySearchResult)
    (k : ℚ) (hx : x.score ≠ k) :
    (List.orderedInsert scoreDesc x l).filter (fun r => decide (r.score = k)) =
      l.filter (fun r => decide (r.score = k)) := by
  induction l with
  | nil => simp [List.orderedInsert, hx]
  | cons y ys ih =>
    rw [List.orderedInsert]
    by_cases hr : scoreDesc x y
    · rw [if_pos hr]
      simp [List.filter_cons, hx]
    · rw [if_neg hr]
      simp only [List.filter_cons, ih]

/-- Inserting an element of score `k` prepends it to the score-`k`
filter: all list elements passed over have a strictly larger score. -/
theorem filter_orderedInsert_eq (x : MemorySearchResult) (l : List MemorySearchResult)
    (k : ℚ) (hx : x.score = k) :
    (List.orderedInsert scoreDesc x l).filter (fun r => decide (r.score = k)) =
      x :: l.filter (fun r => decide (r.score = k)) := by
  induction l with
  | nil => simp [List.orderedInsert, hx]
  | cons y ys ih =>
    rw [List.orderedInsert]
    by_cases hr : scoreDesc x y
    · rw [if_pos hr]
      simp [List.filter_cons, hx]
    · rw [if_neg hr]
      have hy : y.score ≠ k := by
        intro hk
        exact hr (show y.score ≤ x.score by rw [hk, ← hx])
      simp [List.filter_cons, hy, ih]

/-- The descending insertion sort is stable: elements of equal score
keep their original relative order. -/
theorem filter_insertionSort_scoreDesc (l : List MemorySearchResult) (k : ℚ) :
    (List.insertionSort scoreDesc l).filter (fun r => decide (r.score = k)) =
      l.filter (fun r => decide (r.score = k)) := by
  induction l with
  | nil => rfl
  | cons x xs ih =>
    rw [List.insertionSort]
    by_cases hx : x.score = k
    · rw [filter_orderedInsert_eq _ _ _ hx, ih]
      simp [List.filter_cons, hx]
    · rw [filter_orderedInsert_ne _ _ _ hx, ih]
      simp [List.filter_cons, hx]

/-- **C6.** Every result returned by `recall` carries the score
`(vector_weight · cosine + keyword_weight · jaccard) · (1 + 0.01 ·
access_count)` of its entry, with the cosine term contributing 0 when
either embedding is missing; the returned list is sorted by score
descending; the sort is stable (equal-score results keep original
storage order, which is the order of the scored list, itself aligned
with the entry list); and the returned list is the `limit`-prefix of the
full ranking. -/
theorem recall_score_and_order (cosineSim : List ℚ → List ℚ → ℚ) (vw kw : ℚ)
    (qEmb : Option (List ℚ)) (query : Str) (entries : List MemoryEntry) (limit : Nat) :
    (∀ r ∈ recallModel cosineSim vw kw qEmb query entries limit,
      r.score = (vw * (match qEmb, r.entry.embedding with
          | some q, some emb => cosineSim q emb
          | _, _ => 0) +
        kw * jaccard_similarity (extract_keywords query)
          (extract_keywords r.entry.content)) *
        (1 + (r.entry.access_count : ℚ) * (1 / 100))) ∧
    (recallModel cosineSim vw kw qEmb query entries limit).Pairwise
      (fun a b => b.score ≤ a.score) ∧
    (∀ k : ℚ, (recallRanked cosineSim vw kw qEmb query entries).filter
        (fun r => decide (r.score = k)) =
      (recallScored cosineSim vw kw qEmb query entries).filter
        (fun r => decide (r.score = k))) ∧
    (recallScored cosineSim vw kw qEmb query entries).map MemorySearchResult.entry =
      entries ∧
    List.Perm (recallRanked cosineSim vw kw qEmb query entries)
      (recallScored cosineSim vw kw qEmb query entries) ∧
    recallModel cosineSim vw kw qEmb query entries limit =
      (recallRanked cosineSim vw kw qEmb query entries).take limit := by
  refine ⟨?_, ?_, ?_, ?_, ?_, rfl⟩
  · intro r hr
    have hr1 : r ∈ recallRanked cosineSim vw kw qEmb query entries :=
      List.mem_of_mem_take hr
    have hr2 : r ∈ recallScored cosineSim vw kw qEmb query entries :=
      (List.mem_insertionSort scoreDesc).mp hr1
    obtain ⟨e, he, rfl⟩ := List.mem_map.mp hr2
    show recallScore cosineSim vw kw qEmb (extract_keywords query) e = _
    unfold recallScore
    cases hq : qEmb with
    | none =>
      cases hb : e.embedding <;> dsimp only <;> ring
    | some q =>
      cases hb : e.embedding <;> dsimp only <;> ring
  · have hs : List.Sorted scoreDesc (recallRanked cosineSim vw kw qEmb query entries) :=
      List.sorted_insertionSort scoreDesc _
    exact List.Pairwise.sublist (List.take_sublist _ _) hs
  · exact fun k => filter_insertionSort_scoreDesc _ k
  · unfold recallScored
    rw [List.map_map]
    exact List.map_id entries
  · exact List.perm_insertionSort scoreDesc _

/-- Witness for C6 at a one-entry store: the returned result carries
exactly the hybrid score of the claim's formula. -/
theorem recall_score_and_order_witness :
    resC6 ∈ recallModel (fun _ _ => 0) 7 3 none [] [entC6] 1 ∧
    resC6.score = (7 * (match (none : Option (List ℚ)), resC6.entry.embedding with
        | some q, some emb => (fun _ _ => (0 : ℚ)) q emb
        | _, _ => 0) +
      3 * jaccard_similarity (extract_keywords [])
        (extract_keywords resC6.entry.content)) *
      (1 + (resC6.entry.access_count : ℚ) * (1 / 100)) := by
  have hscore : recallScore (fun _ _ => 0) 7 3 none (extract_keywords []) entC6 = 3 := by
    show (0 + jaccard_similarity (extract_keywords []) (extract_keywords []) * 3) *
        (1 + ((0 : Nat) : ℚ) * (1 / 100)) = 3
    have hk : extract_keywords ([] : Str) = [] := rfl
    have hj : jaccard_similarity (extract_keywords []) (extract_keywords []) = 1 := by
      rw [hk]
      rfl
    rw [hj]
    norm_num
  have heval : recallModel (fun _ _ => 0) 7 3 none [] [entC6] 1 =
      [⟨entC6, recallScore (fun _ _ => 0) 7 3 none (extract_keywords []) entC6⟩] := rfl
  have hm : resC6 ∈ recallModel (fun _ _ => 0) 7 3 none [] [entC6] 1 := by
    rw [heval, hscore]
    exact List.mem_singleton.mpr rfl
  exact ⟨hm, (recall_score_and_order (fun _ _ => 0) 7 3 none
    [] [entC6] 1).1 resC6 hm⟩

/-- With no query embedding, an empty-content, never-accessed entry
scores exactly `keyword_weight` (via `jaccard(∅, ∅) = 1`). -/
theorem recallScore_empty_content (cosineSim : List ℚ → List ℚ → ℚ) (vw kw : ℚ)
    (e : MemoryEntry) (hc : e.content = []) (hac : e.access_count = 0) :
    recallScore cosineSim vw kw none (extract_keywords []) e = kw := by
  show (0 + jaccard_similarity (extract_keywords []) (extract_keywords e.content) * kw) *
      (1 + (e.access_count : ℚ) * (1 / 100)) = kw
  have hk : extract_keywords ([] : Str) = [] := rfl
  have hj : jaccard_similarity (extract_keywords []) (extract_keywords e.content) = 1 := by
    rw [hc, hk]
    rfl
  rw [hj, hac]
  norm_num

/-- **C10.** When `save` evicts at capacity, the whole in-memory list is
re-sorted by `accessed_at` before the removal: the result is the sorted
tail plus the new entry, so the surviving entries sit in `accessed_at`
order rather than in insertion order.  Concretely, saving `N` into
`[A(30), B(10), C(20)]` at capacity 3 yields storage `[C, A, N]` —
the survivors' relative order `A before C` flips — and a recall in
which all scores tie returns `c` before `a`, following the new storage
order through the stable tie-break. -/
theorem saveEntry_reorders_storage :
    (∀ (maxEntries : Nat) (entries : List MemoryEntry) (newEntry : MemoryEntry)
        (l' : List MemoryEntry),
      maxEntries ≤ entries.length →
      saveEntry maxEntries entries newEntry = some l' →
      l' = (List.insertionSort accLe entries).tail ++ [newEntry] ∧
        List.Sorted accLe l'.dropLast) ∧
    saveEntry 3 [entA10, entB10, entC10] entN10 = some [entC10, entA10, entN10] ∧
    ([entC10, entA10] : List MemoryEntry) ≠ [entA10, entC10] ∧
    (recallModel (fun _ _ => 0) 7 3 none [] [entC10, entA10, entN10] 3).map
      (fun r => r.entry.id) = [("c".toList), ("a".toList), ("n".toList)] := by
  refine ⟨?_, by decide, by decide, ?_⟩
  · intro m entries newEntry l' hle hsave
    unfold saveEntry at hsave
    rw [if_pos hle] at hsave
    cases hs : List.insertionSort accLe entries with
    | nil => rw [hs] at hsave; exact Option.noConfusion hsave
    | cons e rest =>
      rw [hs] at hsave
      have hl : l' = rest ++ [newEntry] := (Option.some.inj hsave).symm
      constructor
      · rw [hl]
        rfl
      · rw [hl, List.dropLast_concat]
        have := List.sorted_insertionSort accLe entries
        rw [hs] at this
        exact this.of_cons
  · have hC := recallScore_empty_content (fun _ _ => 0) 7 3 entC10 rfl rfl
    have hA := recallScore_empty_content (fun _ _ => 0) 7 3 entA10 rfl rfl
    have hN := recallScore_empty_content (fun _ _ => 0) 7 3 entN10 rfl rfl
    have hscored : recallScored (fun _ _ => 0) 7 3 none [] [entC10, entA10, entN10] =
        [⟨entC10, recallScore (fun _ _ => 0) 7 3 none (extract_keywords []) entC10⟩,
         ⟨entA10, recallScore (fun _ _ => 0) 7 3 none (extract_keywords []) entA10⟩,
         ⟨entN10, recallScore (fun _ _ => 0) 7 3 none (extract_keywords []) entN10⟩] := rfl
    have hlist : recallScored (fun _ _ => 0) 7 3 none [] [entC10, entA10, entN10] =
        [⟨entC10, 3⟩, ⟨entA10, 3⟩, ⟨entN10, 3⟩] := by
      rw [hscored, hC, hA, hN]
    have hsorted : List.Sorted scoreDesc
        ([⟨entC10, 3⟩, ⟨entA10, 3⟩, ⟨entN10, 3⟩] : List MemorySearchResult) := by
      simp [List.sorted_cons, scoreDesc]
    have hgoal : recallModel (fun _ _ => 0) 7 3 none [] [entC10, entA10, entN10] 3 =
        [⟨entC10, 3⟩, ⟨entA10, 3⟩, ⟨entN10, 3⟩] := by
      unfold recallModel recallRanked
      rw [hlist, hsorted.insertionSort_eq]
      rfl
    rw [hgoal]
    rfl

/-- Witness for C10: the general eviction clause applied at the concrete
`[A(30), B(10), C(20)]` store. -/
theorem saveEntry_reorders_storage_witness :
    3 ≤ ([entA10, entB10, entC10] : List MemoryEntry).length ∧
    saveEntry 3 [entA10, entB10, entC10] entN10 = some [entC10, entA10, entN10] ∧
    ([entC10, entA10, entN10] : List MemoryEntry) =
      (List.insertionSort accLe [entA10, entB10, entC10]).tail ++ [entN10] ∧
    List.Sorted accLe ([entC10, entA10, entN10] : List MemoryEntry).dropLast :=
  ⟨by decide, by decide,
   (saveEntry_reorders_storage.1 3 [entA10, entB10, entC10] entN10
     [entC10, entA10, entN10] (by decide) (by decide)).1,
   (saveEntry_reorders_storage.1 3 [entA10, entB10, entC10] entN10
     [entC10, entA10, entN10] (by decide) (by decide)).2⟩

/-- One `pushBrace` either leaves the call list unchanged or appends a
single call that differs (as a `(name, arguments)` pair) from every call
already present. -/
theorem pushBrace_extends (calls : List ToolCall) (body : Str) :
    pushBrace calls body = calls ∨
    ∃ call, pushBrace calls body = calls ++ [call] ∧
      ∀ c' ∈ calls, sameCall c' call = false := by
  unfold pushBrace
  repeat' split
  all_goals try dsimp only
  all_goals repeat' split
  all_goals try (left; rfl)
  all_goals
    right
    refine ⟨_, rfl, fun c' hc' => ?_⟩
    rename_i hany
    have h1 : ¬ (List.any calls (fun c => sameCall c _) = true) := hany
    exact Bool.eq_false_iff.mpr (List.any_eq_false.mp (Bool.eq_false_iff.mpr h1) c' hc')

/-- One scan step either keeps the call list or appends one
duplicate-checked call. -/
theorem braceStep_calls (st : BraceSt) (c : Char) :
    (braceStep st c).calls = st.calls ∨
    ∃ call, (braceStep st c).calls = st.calls ++ [call] ∧
      ∀ c' ∈ st.calls, sameCall c' call = false := by
  unfold braceStep
  by_cases h1 : c = '{'
  · rw [if_pos h1]; left; rfl
  · rw [if_neg h1]
    by_cases h2 : c = '}'
    · rw [if_pos h2]
      dsimp only
      by_cases h3 : st.depth - 1 = 0
      · rw [if_pos h3]
        cases hb : st.buf with
        | none => left; rfl
        | some b => exact pushBrace_extends st.calls (b ++ ['}'])
      · rw [if_neg h3]; left; rfl
    · rw [if_neg h2]; left; rfl

/-- The whole balanced-brace scan only ever appends duplicate-checked
calls. -/
theorem braceScan_extends : ∀ (s : Str) (st : BraceSt),
    ∃ extra, (s.foldl braceStep st).calls = st.calls ++ extra ∧
      NoDupFrom st.calls extra := by
  intro s
  induction s with
  | nil => exact fun st => ⟨[], by simp, trivial⟩
  | cons c rest ih =>
    intro st
    rw [List.foldl_cons]
    obtain ⟨extra, hx, hnd⟩ := ih (braceStep st c)
    rcases braceStep_calls st c with h | ⟨call, hcall, hguard⟩
    · exact ⟨extra, by rw [hx, h], h ▸ hnd⟩
    · refine ⟨call :: extra, ?_, hguard, hcall ▸ hnd⟩
      rw [hx, hcall, List.append_assoc]
      rfl

/-- **C3, counterexample.** The fenced-block pass pushes parsed calls
without the duplicate check: a reply containing the same fenced tool
block twice yields a call list with two `(name, arguments)`-equal
entries, refuting the claim that the returned list is always
deduplicated. -/
theorem parse_all_fenced_duplicates :
    ¬ noDupCalls (parse_all_tool_calls dupFencedText) := by decide

/-- **C3, amended.** The deduplication guard protects the brace-scan and
XML passes only: every call the parser appends *after* the fenced-block
pass differs in `(name, arguments)` from all calls before it, while the
fenced-block pass itself is not deduplicated. -/
theorem parse_all_dedup_after_fenced (s : Str) :
    ∃ extra, parse_all_tool_calls s = fencedPass (s.length + 1) s ++ extra ∧
      NoDupFrom (fencedPass (s.length + 1) s) extra := by
  obtain ⟨extra, hx, hnd⟩ :=
    braceScan_extends s ⟨0, none, fencedPass (s.length + 1) s⟩
  have hbs : braceScan (fencedPass (s.length + 1) s) s =
      fencedPass (s.length + 1) s ++ extra := hx
  unfold parse_all_tool_calls
  dsimp only
  rw [hbs]
  by_cases he : (fencedPass (s.length + 1) s ++ extra).isEmpty
  · rw [if_pos he]
    obtain ⟨hf, hex⟩ := List.append_eq_nil.mp (List.isEmpty_iff.mp he)
    cases hxml : parseXmlToolCall s with
    | none =>
      exact ⟨[], by rw [hf]; rfl, trivial⟩
    | some c =>
      refine ⟨[c], by rw [hf]; rfl, ?_⟩
      rw [hf]
      exact ⟨fun c' hc' => absurd hc' (List.not_mem_nil c'), trivial⟩
  · rw [if_neg he]
    exact ⟨extra, rfl, hnd⟩

/-- The SipHash value is a 64-bit quantity. -/
theorem siphash13_lt (bytes : List Nat) : siphash13 bytes < two64 := by
  unfold siphash13
  dsimp only
  exact Nat.mod_lt _ (by norm_num [two64])

/-- Fixed-width binary rendering is injective below `2 ^ n`. -/
theorem bitChars_inj : ∀ (n v w : Nat), v < 2 ^ n → w < 2 ^ n →
    bitChars n v = bitChars n w → v = w := by
  intro n
  induction n with
  | zero => intro v w hv hw _; omega
  | succ n ih =>
    intro v w hv hw h
    rw [bitChars, bitChars] at h
    have hpow : 2 ^ (n + 1) = 2 * 2 ^ n := by ring
    have hv2 : v / 2 < 2 ^ n := by omega
    have hw2 : w / 2 < 2 ^ n := by omega
    have htail := List.tail_eq_of_cons_eq h
    have hhead := List.head_eq_of_cons_eq h
    have hdiv : v / 2 = w / 2 := ih (v / 2) (w / 2) hv2 hw2 htail
    have hmod : v % 2 = w % 2 := by
      by_cases h1 : v % 2 = 1 <;> by_cases h2 : w % 2 = 1
      · rw [h1, h2]
      · rw [if_pos h1, if_neg h2] at hhead; exact absurd hhead (by decide)
      · rw [if_neg h1, if_pos h2] at hhead; exact absurd hhead (by decide)
      · omega
    omega

set_option maxHeartbeats 1600000 in
/-- Some two structurally distinct `SecurityAction`s produce the same
action id: the id factors through a 64-bit hash, and there are more
than `2 ^ 64` pairwise distinct `FetchUrl` actions. -/
theorem exists_action_id_collision :
    ∃ a b : SecurityAction, a ≠ b ∧ generate_action_id a = generate_action_id b := by
  have hle : two64 + 1 ≤ 2 ^ 65 := by
    have h1 : (2 : Nat) ^ 64 < 2 ^ 65 := Nat.pow_lt_pow_right (by norm_num) (by norm_num)
    unfold two64
    omega
  have hcard : Fintype.card (Fin two64) < Fintype.card (Fin (two64 + 1)) := by
    rw [Fintype.card_fin, Fintype.card_fin]
    exact Nat.lt_succ_self two64
  obtain ⟨i, j, hne, heq⟩ := Fintype.exists_ne_map_eq_of_card_lt
    (fun i : Fin (two64 + 1) =>
      (⟨siphash13 (strHashBytes (debugAction
          (SecurityAction.FetchUrl (bitChars 65 i.val)))), siphash13_lt _⟩ : Fin two64))
    hcard
  have hh : siphash13 (strHashBytes (debugAction
        (SecurityAction.FetchUrl (bitChars 65 i.val)))) =
      siphash13 (strHashBytes (debugAction
        (SecurityAction.FetchUrl (bitChars 65 j.val)))) := congrArg Fin.val heq
  refine ⟨SecurityAction.FetchUrl (bitChars 65 i.val),
    SecurityAction.FetchUrl (bitChars 65 j.val), ?_, ?_⟩
  · intro hcon
    have hb : bitChars 65 i.val = bitChars 65 j.val := by
      injection hcon
    have hij : i.val = j.val :=
      bitChars_inj 65 i.val j.val (lt_of_lt_of_le i.isLt hle)
        (lt_of_lt_of_le j.isLt hle) hb
    exact hne (Fin.ext hij)
  · unfold generate_action_id
    rw [hh]

/-- **C8, counterexample.** `generate_action_id` is not injective on
`SecurityAction` values: the id is `action_` plus a 64-bit
`DefaultHasher` value of the action's `Debug` string, and by pigeonhole
two of the `2 ^ 64 + 1` pairwise distinct 65-character `FetchUrl`
actions share their hash, hence their id. -/
theorem generate_action_id_not_injective : ¬ Function.Injective generate_action_id := by
  intro hinj
  obtain ⟨a, b, hne, heq⟩ := exists_action_id_collision
  exact hne (hinj heq)

/-- Hex digits decode back to their value. -/
theorem hexVal_hexDigitChar : ∀ m : Fin 16, hexVal (hexDigitChar m.val) = m.val := by
  decide

/-- Correctness of the hex rendering under the left-fold decoder. -/
theorem hexAux_decode : ∀ (f n acc : Nat), n < 16 ^ f →
    List.foldl (fun acc c => 16 * acc + hexVal c) acc (hexAux f n) =
      acc * 16 ^ (hexAux f n).length + n := by
  intro f
  induction f with
  | zero => intro n acc hn; interval_cases n; simp [hexAux]
  | succ f ih =>
    intro n acc hn
    rw [hexAux]
    by_cases h0 : n = 0
    · rw [if_pos h0, h0]; simp
    · rw [if_neg h0]
      have hdiv : n / 16 < 16 ^ f := by
        have : 16 ^ (f + 1) = 16 ^ f * 16 := by ring
        omega
      rw [List.foldl_append, ih (n / 16) acc hdiv]
      have hd : hexVal (hexDigitChar (n % 16)) = n % 16 :=
        hexVal_hexDigitChar ⟨n % 16, Nat.mod_lt n (by norm_num)⟩
      simp only [List.foldl_cons, List.foldl_nil, List.length_append,
        List.length_singleton, hd]
      have : 16 ^ ((hexAux f (n / 16)).length + 1) =
          16 ^ (hexAux f (n / 16)).length * 16 := by ring
      rw [this]
      have hnm : 16 * (n / 16) + n % 16 = n := by omega
      ring_nf
      omega

/-- The decoder inverts `toHex` on 64-bit values. -/
theorem ofHex_toHex (n : Nat) (hn : n < 16 ^ 64) : ofHex (toHex n) = n := by
  unfold toHex ofHex
  by_cases h0 : n = 0
  · rw [if_pos h0, h0]; rfl
  · rw [if_neg h0]
    have := hexAux_decode 64 n 0 hn
    rw [this]
    simp

/-- `toHex` is injective on 64-bit values. -/
theorem toHex_inj (a b : Nat) (ha : a < two64) (hb : b < two64) (h : toHex a = toHex b) :
    a = b := by
  have hle : two64 ≤ 16 ^ 64 := by norm_num [two64]
  have := congrArg ofHex h
  rwa [ofHex_toHex a (lt_of_lt_of_le ha hle), ofHex_toHex b (lt_of_lt_of_le hb hle)] at this

/-- **C8, amended.** The action id is a deterministic function of the
action's `Debug` string (equal strings give equal ids, and ids separate
whenever the underlying 64-bit hashes differ), but it is *not*
injective on `SecurityAction` values: the 64-bit hash must collide on
some pair of structurally distinct actions. -/
theorem generate_action_id_deterministic_hash :
    (∀ a b : SecurityAction,
      siphash13 (strHashBytes (debugAction a)) ≠ siphash13 (strHashBytes (debugAction b)) →
      generate_action_id a ≠ generate_action_id b) ∧
    (∀ a b : SecurityAction, debugAction a = debugAction b →
      generate_action_id a = generate_action_id b) ∧
    (∃ a b : SecurityAction, a ≠ b ∧ generate_action_id a = generate_action_id b) := by
  refine ⟨?_, ?_, exists_action_id_collision⟩
  · intro a b hne hid
    apply hne
    have := List.append_cancel_left hid
    exact toHex_inj _ _ (siphash13_lt _) (siphash13_lt _) this
  · intro a b h
    unfold generate_action_id
    rw [h]

/-- Witness for C8's amended theorem: two concrete actions whose 64-bit
hashes differ have distinct ids, and two whose `Debug` strings agree
(the same action twice) share one. -/
theorem generate_action_id_deterministic_hash_witness :
    (siphash13 (strHashBytes (debugAction (SecurityAction.FetchUrl ("a".toList)))) ≠
      siphash13 (strHashBytes (debugAction (SecurityAction.FetchUrl ("b".toList))))) ∧
    generate_action_id (SecurityAction.FetchUrl ("a".toList)) ≠
      generate_action_id (SecurityAction.FetchUrl ("b".toList)) ∧
    generate_action_id (SecurityAction.SaveData ("k".toList)) =
      generate_action_id (SecurityAction.SaveData ("k".toList)) :=
  ⟨by decide,
   generate_action_id_deterministic_hash.1 _ _ (by decide),
   generate_action_id_deterministic_hash.2.1 _ _ rfl⟩

/-- Witness for C5: the spec's Scenario B.  `max_entries = 2`, store
`[E1(accessed_at 10), E2(accessed_at 20)]`; saving `E3` evicts `E1` and
the final list is `[E2, E3]`. -/
theorem saveEntry_evicts_oldest_witness :
    ([entE1, entE2] : List MemoryEntry).length = 2 ∧ 0 < 2 ∧
    (∃ evicted l', saveEntry 2 [entE1, entE2] entE3 = some l' ∧
      l'.length = 2 ∧ evicted ∈ [entE1, entE2] ∧
      (∀ e ∈ [entE1, entE2], evicted.accessed_at ≤ e.accessed_at) ∧
      List.Perm (evicted :: l') (entE3 :: [entE1, entE2])) ∧
    saveEntry 2 [entE1, entE2] entE3 = some [entE2, entE3] :=
  ⟨rfl, by decide, saveEntry_evicts_oldest.1 2 [entE1, entE2] entE3 rfl (by decide),
   by decide⟩


/-! ### Substring search: characterization of `findSubstr` -/

theorem prefix_cons_head {p x : Char} {pt l : Str} (h : (p :: pt) <+: (x :: l)) : p = x := by
  obtain ⟨t, ht⟩ := h
  exact (List.cons.injEq .. ▸ ht).1

theorem prefix_split_left {pat a b : Str} (h : pat <+: a ++ b) (hl : pat.length ≤ a.length) :
    pat <+: a := by
  have h1 := (List.prefix_iff_eq_take.mp h)
  rw [List.take_append_of_le_length hl] at h1
  rw [h1]
  exact List.take_prefix _ _

theorem prefix_split_right {pat a b : Str} (h : pat <+: a ++ b) (hl : a.length ≤ pat.length) :
    pat.drop a.length <+: b := by
  obtain ⟨t, ht⟩ := h
  have ha : a = pat.take a.length := by
    have := congrArg (List.take a.length) ht
    rw [List.take_append_of_le_length hl, List.take_left] at this
    exact this.symm
  have hp : pat = a ++ pat.drop a.length := by
    conv_lhs => rw [← List.take_append_drop a.length pat]
    rw [← ha]
  have hb : pat.drop a.length ++ t = b := by
    have := ht
    rw [hp, List.append_assoc] at this
    exact List.append_cancel_left this
  exact ⟨t, hb⟩

theorem occursAt_iff (pat s : Str) (i : Nat) : occursAt pat s i ↔ pat <+: s.drop i := by
  rw [occursAt, List.isPrefixOf_iff_prefix]

theorem occursAt_cons_succ (pat : Str) (c : Char) (rest : Str) (j : Nat) :
    occursAt pat (c :: rest) (j + 1) ↔ occursAt pat rest j := by
  rw [occursAt, occursAt, List.drop_succ_cons]

theorem occursAt_length {pat s : Str} {i : Nat} (hp : pat ≠ []) (h : occursAt pat s i) :
    pat.length + i ≤ s.length := by
  have := (occursAt_iff pat s i).mp h
  have hlen := this.length_le
  rw [List.length_drop] at hlen
  have hpl : 1 ≤ pat.length := by
    cases hc : pat with
    | nil => exact absurd hc hp
    | cons c t => simp [hc]
  omega

theorem findSubstr_none_iff (pat : Str) : ∀ s : Str,
    (findSubstr pat s = none ↔ ∀ i, ¬ occursAt pat s i) := by
  intro s
  induction s with
  | nil =>
    rw [findSubstr]
    by_cases hp : pat.isEmpty
    · rw [if_pos hp]
      simp only [reduceCtorEq, false_iff, not_forall, not_not]
      exact ⟨0, by rw [occursAt]; simp [List.isPrefixOf, List.isEmpty_iff.mp hp]⟩
    · rw [if_neg hp]
      simp only [true_iff]
      intro i h
      rw [occursAt, List.drop_nil] at h
      cases hc : pat with
      | nil => rw [hc] at hp; exact hp rfl
      | cons c t => rw [hc] at h; exact absurd h (by simp [List.isPrefixOf])
  | cons c rest ih =>
    rw [findSubstr]
    by_cases hp : pat.isPrefixOf (c :: rest)
    · rw [if_pos hp]
      simp only [reduceCtorEq, false_iff, not_forall, not_not]
      exact ⟨0, by rw [occursAt]; exact hp⟩
    · rw [if_neg hp]
      constructor
      · intro h i
        have hn : findSubstr pat rest = none := by
          cases hf : findSubstr pat rest with
          | none => rfl
          | some k => rw [hf] at h; exact Option.noConfusion h
        cases i with
        | zero => rw [occursAt]; simpa using hp
        | succ j =>
          rw [occursAt_cons_succ]
          exact (ih.mp hn) j
      · intro h
        have : findSubstr pat rest = none :=
          ih.mpr (fun j hc => (h (j + 1)) ((occursAt_cons_succ pat c rest j).mpr hc))
        rw [this]
        rfl

theorem findSubstr_some_iff (pat : Str) : ∀ (s : Str) (i : Nat),
    (findSubstr pat s = some i ↔ occursAt pat s i ∧ ∀ j < i, ¬ occursAt pat s j) := by
  intro s
  induction s with
  | nil =>
    intro i
    rw [findSubstr]
    by_cases hp : pat.isEmpty
    · rw [if_pos hp]
      have hocc : ∀ k, occursAt pat [] k := by
        intro k
        rw [occursAt, List.drop_nil]
        simp [List.isPrefixOf, List.isEmpty_iff.mp hp]
      constructor
      · intro h
        have : i = 0 := (Option.some.inj h).symm
        exact ⟨hocc i, by omega⟩
      · rintro ⟨_, hmin⟩
        cases i with
        | zero => rfl
        | succ k => exact absurd (hocc 0) (hmin 0 (by omega))
    · rw [if_neg hp]
      constructor
      · intro h; exact Option.noConfusion h
      · rintro ⟨hocc, _⟩
        rw [occursAt, List.drop_nil] at hocc
        cases hc : pat with
        | nil => rw [hc] at hp; exact absurd rfl hp
        | cons c t => rw [hc] at hocc; exact absurd hocc (by simp [List.isPrefixOf])
  | cons c rest ih =>
    intro i
    rw [findSubstr]
    by_cases hp : pat.isPrefixOf (c :: rest)
    · rw [if_pos hp]
      constructor
      · intro h
        have : i = 0 := (Option.some.inj h).symm
        subst this
        exact ⟨hp, by omega⟩
      · rintro ⟨hocc, hmin⟩
        cases i with
        | zero => rfl
        | succ k =>
          exact absurd (show occursAt pat (c :: rest) 0 from hp) (hmin 0 (by omega))
    · rw [if_neg hp]
      constructor
      · intro h
        obtain ⟨k, hk, hik⟩ := Option.map_eq_some'.mp h
        obtain ⟨h1, h2⟩ := (ih k).mp hk
        subst hik
        refine ⟨(occursAt_cons_succ pat c rest k).mpr h1, ?_⟩
        intro j hj
        cases j with
        | zero => rw [occursAt]; simpa using hp
        | succ j' =>
          rw [occursAt_cons_succ]
          exact h2 j' (by omega)
      · rintro ⟨hocc, hmin⟩
        cases i with
        | zero => exact absurd hocc (by rw [occursAt]; simpa using hp)
        | succ k =>
          have h1 : occursAt pat rest k := (occursAt_cons_succ pat c rest k).mp hocc
          have h2 : ∀ j < k, ¬ occursAt pat rest j := by
            intro j hj hcon
            exact hmin (j + 1) (by omega) ((occursAt_cons_succ pat c rest j).mpr hcon)
          rw [(ih k).mpr ⟨h1, h2⟩]
          rfl


/-! ### Key order and object normalization -/

theorem keyLt_irrefl : ∀ s : Str, keyLt s s = false := by
  intro s
  induction s with
  | nil => rfl
  | cons c rest ih => rw [keyLt, if_pos rfl]; exact ih

theorem keyLt_asymm : ∀ a b : Str, keyLt a b = true → keyLt b a = false := by
  intro a
  induction a with
  | nil =>
    intro b h
    cases b with
    | nil => exact absurd h (by rw [keyLt]; simp)
    | cons d ds => rw [keyLt]
  | cons c cs ih =>
    intro b h
    cases b with
    | nil => rw [keyLt] at h; exact absurd h (by simp)
    | cons d ds =>
      rw [keyLt] at h ⊢
      by_cases hcd : c = d
      · rw [if_pos hcd] at h
        rw [if_pos hcd.symm]
        exact ih ds h
      · rw [if_neg hcd] at h
        have hlt : c < d := of_decide_eq_true h
        rw [if_neg (fun hdc => hcd hdc.symm)]
        exact decide_eq_false (lt_asymm hlt)

theorem keyLt_ne {a b : Str} (h : keyLt a b = true) : a ≠ b := by
  intro hab
  rw [hab, keyLt_irrefl] at h
  exact Bool.noConfusion h

theorem keyLt_trans : ∀ a b c : Str, keyLt a b = true → keyLt b c = true →
    keyLt a c = true := by
  intro a
  induction a with
  | nil =>
    intro b c hab hbc
    cases b with
    | nil => exact absurd hab (by rw [keyLt]; simp)
    | cons y ys =>
      cases c with
      | nil => rw [keyLt] at hbc; exact absurd hbc (by simp)
      | cons z zs => rw [keyLt]
  | cons x xs ih =>
    intro b c hab hbc
    cases b with
    | nil => rw [keyLt] at hab; exact absurd hab (by simp)
    | cons y ys =>
      cases c with
      | nil => rw [keyLt] at hbc; exact absurd hbc (by simp)
      | cons z zs =>
        rw [keyLt] at hab hbc ⊢
        by_cases hxy : x = y <;> by_cases hyz : y = z
        · rw [if_pos (hxy.trans hyz)]
          rw [if_pos hxy] at hab
          rw [if_pos hyz] at hbc
          exact ih ys zs hab hbc
        · rw [if_pos hxy] at hab
          rw [if_neg hyz] at hbc
          have h2 : y < z := of_decide_eq_true hbc
          rw [if_neg (show x ≠ z from hxy ▸ ne_of_lt h2)]
          exact decide_eq_true (hxy ▸ h2)
        · rw [if_neg hxy] at hab
          rw [if_pos hyz] at hbc
          have h1 : x < y := of_decide_eq_true hab
          rw [if_neg (show x ≠ z from hyz ▸ ne_of_lt h1)]
          exact decide_eq_true (hyz ▸ h1)
        · rw [if_neg hxy] at hab
          rw [if_neg hyz] at hbc
          have h1 : x < y := of_decide_eq_true hab
          have h2 : y < z := of_decide_eq_true hbc
          rw [if_neg (ne_of_lt (lt_trans h1 h2))]
          exact decide_eq_true (lt_trans h1 h2)

theorem keysSorted_forall : ∀ (fs : List (Str × Json)) (k : Str) (v : Json),
    keysSortedF ((k, v) :: fs) = true → ∀ q ∈ fs, keyLt k q.1 = true := by
  intro fs
  induction fs with
  | nil => intro k v _ q hq; exact absurd hq (List.not_mem_nil q)
  | cons f2 fs' ih =>
    intro k v h q hq
    rw [keysSortedF] at h
    obtain ⟨h1, h2⟩ := Bool.and_eq_true _ _ |>.mp h
    rcases List.mem_cons.mp hq with rfl | hq'
    · exact h1
    · have h3 : keysSortedF ((f2.1, f2.2) :: fs') = true := by
        cases f2
        exact h2
      exact keyLt_trans _ _ _ h1 (ih f2.1 f2.2 h3 q hq')

theorem keysSorted_tail {f g : Str × Json} {fs : List (Str × Json)}
    (h : keysSortedF (f :: g :: fs) = true) : keysSortedF (g :: fs) = true := by
  rw [keysSortedF] at h
  exact (Bool.and_eq_true _ _ |>.mp h).2

theorem objInsert_append : ∀ (acc : List (Str × Json)) (k : Str) (v : Json),
    (∀ p ∈ acc, keyLt p.1 k = true) → objInsert k v acc = acc ++ [(k, v)] := by
  intro acc
  induction acc with
  | nil => intro k v _; rfl
  | cons p rest ih =>
    intro k v h
    obtain ⟨k', v'⟩ := p
    rw [objInsert]
    have hk' : keyLt k' k = true := h (k', v') (List.mem_cons_self _ _)
    rw [if_neg (fun he => keyLt_ne hk' he.symm)]
    have hnlt : ¬ (keyLt k k' = true) := by
      rw [keyLt_asymm k' k hk']
      simp
    rw [if_neg hnlt, ih k v (fun q hq => h q (List.mem_cons_of_mem _ hq))]
    rfl

theorem jsonFuel_pos : ∀ j : Json, 1 ≤ jsonFuel j := by
  intro j
  cases j <;> simp [jsonFuel]

/-! ### Parsing primitives over rendered text -/

theorem skipWs_cons_of {c : Char} (s : Str) (h : isWsChar c = false) :
    skipWs (c :: s) = c :: s := by
  rw [skipWs, List.dropWhile_cons, h]
  rfl

theorem safeChar_not_quote {c : Char} (h : safeChar c = true) : c ≠ '"' := by
  intro hc; rw [hc] at h; exact absurd h (by decide)

theorem safeChar_not_backslash {c : Char} (h : safeChar c = true) : c ≠ '\\' := by
  intro hc; rw [hc] at h; exact absurd h (by decide)

theorem safeChar_not_backtick {c : Char} (h : safeChar c = true) : c ≠ '`' := by
  intro hc; rw [hc] at h; exact absurd h (by decide)

theorem safeChar_delta {c : Char} (h : safeChar c = true) : charDelta c = 0 := by
  rw [charDelta]
  rw [if_neg (fun hc => by rw [hc] at h; exact absurd h (by decide)),
    if_neg (fun hc => by rw [hc] at h; exact absurd h (by decide))]

theorem digit_delta {c : Char} (h : c.isDigit = true) : charDelta c = 0 := by
  rw [charDelta]
  rw [if_neg (fun hc => by rw [hc] at h; exact absurd h (by decide)),
    if_neg (fun hc => by rw [hc] at h; exact absurd h (by decide))]

theorem digit_not_ws {c : Char} (h : c.isDigit = true) : isWsChar c = false := by
  rw [isWsChar]
  have h1 : c ≠ ' ' := fun hc => by rw [hc] at h; exact absurd h (by decide)
  have h2 : c ≠ '\t' := fun hc => by rw [hc] at h; exact absurd h (by decide)
  have h3 : c ≠ '\n' := fun hc => by rw [hc] at h; exact absurd h (by decide)
  have h4 : c ≠ '\r' := fun hc => by rw [hc] at h; exact absurd h (by decide)
  simp [h1, h2, h3, h4]

theorem parseStringBody_append : ∀ (s rest : Str), s.all safeChar = true →
    parseStringBody (s ++ '"' :: rest) = some (s, rest) := by
  intro s
  induction s with
  | nil =>
    intro rest _
    rw [List.nil_append, parseStringBody.eq_def]
    dsimp only
    rw [if_pos rfl]
  | cons c cs ih =>
    intro rest h
    rw [List.all_cons] at h
    obtain ⟨hc, hcs⟩ := Bool.and_eq_true _ _ |>.mp h
    rw [List.cons_append, parseStringBody.eq_def]
    dsimp only
    rw [if_neg (safeChar_not_quote hc), if_neg (safeChar_not_backslash hc)]
    rw [ih rest hcs]
    rfl

theorem takeWhile_append_all {p : Char → Bool} : ∀ {a : Str} (b : Str),
    a.all p = true → (b = [] ∨ ∃ c t, b = c :: t ∧ p c = false) →
    (a ++ b).takeWhile p = a := by
  intro a
  induction a with
  | nil =>
    intro b _ hb
    rcases hb with rfl | ⟨c, t, rfl, hc⟩
    · rfl
    · rw [List.nil_append, List.takeWhile_cons, hc]
      rfl
  | cons x xs ih =>
    intro b h hb
    rw [List.all_cons] at h
    obtain ⟨hx, hxs⟩ := Bool.and_eq_true _ _ |>.mp h
    rw [List.cons_append, List.takeWhile_cons, hx]
    rw [if_pos rfl, ih b hxs hb]

theorem stripPre_append (pat rest : Str) : stripPre pat (pat ++ rest) = some rest := by
  rw [stripPre, if_pos ((List.isPrefixOf_iff_prefix).mpr (List.prefix_append pat rest))]
  rw [List.drop_left]

theorem stripPre_head_ne {p c : Char} (pt s : Str) (h : p ≠ c) :
    stripPre (p :: pt) (c :: s) = none := by
  rw [stripPre, if_neg]
  intro hcon
  exact h (prefix_cons_head ((List.isPrefixOf_iff_prefix).mp hcon))


theorem digit_ne_of {c p : Char} (hd : c.isDigit = true) (hp : p.isDigit = false) :
    c ≠ p := by
  intro he
  rw [he] at hd
  rw [hd] at hp
  exact Bool.noConfusion hp

theorem digits_all_numChar (s : Str) (h : s.all Char.isDigit = true) :
    s.all isNumChar = true := by
  rw [List.all_eq_true] at h ⊢
  intro c hc
  simp [isNumChar, h c hc]

theorem stripPre_true_ne {c : Char} (t : Str) (h : c ≠ 't') :
    stripPre ("true".toList) (c :: t) = none := stripPre_head_ne _ _ (Ne.symm h)

theorem stripPre_false_ne {c : Char} (t : Str) (h : c ≠ 'f') :
    stripPre ("false".toList) (c :: t) = none := stripPre_head_ne _ _ (Ne.symm h)

theorem stripPre_null_ne {c : Char} (t : Str) (h : c ≠ 'n') :
    stripPre ("null".toList) (c :: t) = none := stripPre_head_ne _ _ (Ne.symm h)

theorem stripPre_true_yes (t : Str) :
    stripPre ("true".toList) ('t' :: 'r' :: 'u' :: 'e' :: t) = some t :=
  stripPre_append _ t

theorem stripPre_false_yes (t : Str) :
    stripPre ("false".toList) ('f' :: 'a' :: 'l' :: 's' :: 'e' :: t) = some t :=
  stripPre_append _ t

theorem stripPre_null_yes (t : Str) :
    stripPre ("null".toList) ('n' :: 'u' :: 'l' :: 'l' :: t) = some t :=
  stripPre_append _ t

theorem renderHead : ∀ j : Json, safeJson j = true →
    ∃ d t', renderJson j = d :: t' ∧ isWsChar d = false ∧ d ≠ ']' := by
  intro j hs
  cases j with
  | null => exact ⟨'n', ['u', 'l', 'l'], rfl, by decide, by decide⟩
  | bool b =>
    cases b with
    | true => exact ⟨'t', ['r', 'u', 'e'], rfl, by decide, by decide⟩
    | false => exact ⟨'f', ['a', 'l', 's', 'e'], rfl, by decide, by decide⟩
  | num raw =>
    rw [show safeJson (Json.num raw) = (!raw.isEmpty && raw.all Char.isDigit) from rfl] at hs
    obtain ⟨hne, hall⟩ := Bool.and_eq_true _ _ |>.mp hs
    cases raw with
    | nil => exact absurd hne (by decide)
    | cons d raw' =>
      rw [List.all_cons] at hall
      obtain ⟨hd, _⟩ := Bool.and_eq_true _ _ |>.mp hall
      exact ⟨d, raw', rfl, digit_not_ws hd, digit_ne_of hd (by decide)⟩
  | str s => exact ⟨'"', s ++ ['"'], rfl, by decide, by decide⟩
  | arr l =>
    cases l with
    | nil => exact ⟨'[', [']'], rfl, by decide, by decide⟩
    | cons e es =>
      exact ⟨'[', renderJson e ++ renderArrTail es ++ [']'], rfl, by decide, by decide⟩
  | obj fs =>
    cases fs with
    | nil => exact ⟨'{', ['}'], rfl, by decide, by decide⟩
    | cons f fs' =>
      exact ⟨'{', renderField f ++ renderFieldsTail fs' ++ ['}'], rfl, by decide, by decide⟩

theorem rtAll : ∀ fuel : Nat,
    (∀ (j : Json) (rest : Str), safeJson j = true → jsonFuel j ≤ fuel → RestOk rest →
      parseVal fuel (renderJson j ++ rest) = some (j, rest)) ∧
    (∀ (e : Json) (es : List Json) (acc : List Json) (rest : Str),
      safeJson e = true → safeJsonL es = true →
      jsonFuel e + jsonFuelL es + 1 ≤ fuel → RestOk rest →
      parseArrRest fuel (renderJson e ++ (renderArrTail es ++ (']' :: rest))) acc =
        some (Json.arr (acc ++ e :: es), rest)) ∧
    (∀ (k : Str) (v : Json) (fs : List (Str × Json)) (acc : List (Str × Json)) (rest : Str),
      k.all safeChar = true → safeJson v = true → safeFieldsF fs = true →
      keysSortedF ((k, v) :: fs) = true →
      (∀ p ∈ acc, ∀ q ∈ ((k, v) :: fs), keyLt p.1 q.1 = true) →
      jsonFuel v + jsonFuelF fs + 1 ≤ fuel → RestOk rest →
      parseObjRest fuel (renderField (k, v) ++ (renderFieldsTail fs ++ ('}' :: rest))) acc =
        some (Json.obj (acc ++ (k, v) :: fs), rest)) := by
  intro fuel
  induction fuel with
  | zero =>
    refine ⟨?_, ?_, ?_⟩
    · intro j rest _ hf _
      exact absurd hf (by have := jsonFuel_pos j; omega)
    · intro e es acc rest _ _ hf _
      exact absurd hf (by omega)
    · intro k v fs acc rest _ _ _ _ _ hf _
      exact absurd hf (by omega)
  | succ g ih =>
    refine ⟨?_, ?_, ?_⟩
    · -- parseVal on a rendered value
      intro j rest hs hf hr
      cases j with
      | null =>
        rw [show renderJson Json.null ++ rest = 'n' :: 'u' :: 'l' :: 'l' :: rest from rfl,
          parseVal.eq_def]
        dsimp only
        rw [skipWs_cons_of _ (by decide)]
        dsimp only
        rw [if_neg (by decide), if_neg (by decide), if_neg (by decide),
          stripPre_true_ne _ (by decide)]
        dsimp only
        rw [stripPre_false_ne _ (by decide)]
        dsimp only
        rw [stripPre_null_yes rest]
      | bool b =>
        cases b with
        | true =>
          rw [show renderJson (Json.bool true) ++ rest = 't' :: 'r' :: 'u' :: 'e' :: rest from rfl,
            parseVal.eq_def]
          dsimp only
          rw [skipWs_cons_of _ (by decide)]
          dsimp only
          rw [if_neg (by decide), if_neg (by decide), if_neg (by decide),
            stripPre_true_yes rest]
        | false =>
          rw [show renderJson (Json.bool false) ++ rest =
              'f' :: 'a' :: 'l' :: 's' :: 'e' :: rest from rfl,
            parseVal.eq_def]
          dsimp only
          rw [skipWs_cons_of _ (by decide)]
          dsimp only
          rw [if_neg (by decide), if_neg (by decide), if_neg (by decide),
            stripPre_true_ne _ (by decide)]
          dsimp only
          rw [stripPre_false_yes rest]
      | num raw =>
        rw [show safeJson (Json.num raw) = (!raw.isEmpty && raw.all Char.isDigit) from rfl] at hs
        obtain ⟨hne, hall⟩ := Bool.and_eq_true _ _ |>.mp hs
        cases raw with
        | nil => exact absurd hne (by decide)
        | cons d raw' =>
          rw [List.all_cons] at hall
          obtain ⟨hd, hall'⟩ := Bool.and_eq_true _ _ |>.mp hall
          rw [show renderJson (Json.num (d :: raw')) ++ rest = d :: (raw' ++ rest) from rfl,
            parseVal.eq_def]
          dsimp only
          rw [skipWs_cons_of _ (digit_not_ws hd)]
          dsimp only
          rw [if_neg (digit_ne_of hd (by decide)), if_neg (digit_ne_of hd (by decide)),
            if_neg (digit_ne_of hd (by decide)),
            stripPre_true_ne _ (digit_ne_of hd (by decide))]
          dsimp only
          rw [stripPre_false_ne _ (digit_ne_of hd (by decide))]
          dsimp only
          rw [stripPre_null_ne _ (digit_ne_of hd (by decide))]
          dsimp only
          rw [parseNum.eq_def]
          dsimp only
          rw [hd]
          simp only [Bool.true_or]
          rw [if_pos trivial]
          rw [show d :: (raw' ++ rest) = (d :: raw') ++ rest from rfl,
            takeWhile_append_all rest (digits_all_numChar _ (by rw [List.all_cons]; exact hall))
              hr,
            List.drop_left]
      | str s =>
        rw [show renderJson (Json.str s) = '"' :: (s ++ ['"']) from rfl, List.cons_append,
          List.append_assoc, List.singleton_append, parseVal.eq_def]
        dsimp only
        rw [skipWs_cons_of _ (by decide)]
        dsimp only
        rw [if_neg (by decide), if_neg (by decide), if_pos rfl,
          parseStringBody_append s rest hs]
        rfl
      | arr l =>
        cases l with
        | nil =>
          rw [show renderJson (Json.arr []) ++ rest = '[' :: (']' :: rest) from rfl,
            parseVal.eq_def]
          dsimp only
          rw [skipWs_cons_of _ (by decide)]
          dsimp only
          rw [if_neg (by decide), if_pos rfl, skipWs_cons_of _ (by decide)]
          rfl
        | cons e es =>
          rw [show safeJson (Json.arr (e :: es)) = (safeJson e && safeJsonL es) from rfl] at hs
          obtain ⟨hse, hsl⟩ := Bool.and_eq_true _ _ |>.mp hs
          rw [show jsonFuel (Json.arr (e :: es)) = jsonFuel e + jsonFuelL es + 1 + 1 from rfl]
            at hf
          rw [show renderJson (Json.arr (e :: es)) =
              '[' :: (renderJson e ++ renderArrTail es ++ [']']) from rfl,
            List.cons_append, parseVal.eq_def]
          dsimp only
          rw [skipWs_cons_of _ (by decide)]
          dsimp only
          rw [if_neg (by decide), if_pos rfl]
          split
          · rename_i r heq
            obtain ⟨d, t', he, hws, hne⟩ := renderHead e hse
            rw [he] at heq
            simp only [List.cons_append] at heq
            rw [skipWs_cons_of _ hws] at heq
            injection heq with h1 _
            exact absurd h1 hne
          · simp only [List.append_assoc, List.singleton_append]
            rw [ih.2.1 e es [] rest hse hsl (by omega) hr]
            rfl
      | obj fs =>
        cases fs with
        | nil =>
          rw [show renderJson (Json.obj []) ++ rest = '{' :: ('}' :: rest) from rfl,
            parseVal.eq_def]
          dsimp only
          rw [skipWs_cons_of _ (by decide)]
          dsimp only
          rw [if_pos rfl, skipWs_cons_of _ (by decide)]
          rfl
        | cons f fs' =>
          obtain ⟨k, v⟩ := f
          rw [show safeJson (Json.obj ((k, v) :: fs')) =
              (keysSortedF ((k, v) :: fs') && safeFieldsF ((k, v) :: fs')) from rfl] at hs
          obtain ⟨hsorted, hsf⟩ := Bool.and_eq_true _ _ |>.mp hs
          rw [show safeFieldsF ((k, v) :: fs') =
              (k.all safeChar && safeJson v && safeFieldsF fs') from rfl] at hsf
          obtain ⟨hkv, hsf'⟩ := Bool.and_eq_true _ _ |>.mp hsf
          obtain ⟨hk, hv⟩ := Bool.and_eq_true _ _ |>.mp hkv
          rw [show jsonFuel (Json.obj ((k, v) :: fs')) =
              jsonFuel v + jsonFuelF fs' + 1 + 1 from rfl] at hf
          rw [show renderJson (Json.obj ((k, v) :: fs')) =
              '{' :: (renderField (k, v) ++ renderFieldsTail fs' ++ ['}']) from rfl,
            List.cons_append, parseVal.eq_def]
          dsimp only
          rw [skipWs_cons_of _ (by decide)]
          dsimp only
          rw [if_pos rfl]
          split
          · rename_i r heq
            rw [show renderField (k, v) = '"' :: (k ++ ['"', ':'] ++ renderJson v) from rfl]
              at heq
            simp only [List.cons_append] at heq
            rw [skipWs_cons_of _ (by decide)] at heq
            injection heq with h1 _
            exact absurd h1 (by decide)
          · simp only [List.append_assoc, List.singleton_append]
            rw [ih.2.2 k v fs' [] rest hk hv hsf' hsorted
              (fun p hp => absurd hp (List.not_mem_nil p)) (by omega) hr]
            rfl
    · -- parseArrRest on rendered elements
      intro e es acc rest hse hsl hf hr
      cases es with
      | nil =>
        rw [show renderArrTail ([] : List Json) = ([] : Str) from rfl, List.nil_append,
          parseArrRest.eq_def]
        dsimp only
        rw [ih.1 e (']' :: rest) hse (by omega) (Or.inr ⟨']', rest, rfl, by decide⟩)]
        dsimp only
        rw [skipWs_cons_of _ (by decide)]
        rfl
      | cons e2 es' =>
        rw [show safeJsonL (e2 :: es') = (safeJson e2 && safeJsonL es') from rfl] at hsl
        obtain ⟨hse2, hsl'⟩ := Bool.and_eq_true _ _ |>.mp hsl
        rw [show jsonFuelL (e2 :: es') = jsonFuel e2 + jsonFuelL es' + 1 from rfl] at hf
        have hpe := jsonFuel_pos e
        rw [show renderArrTail (e2 :: es') = ',' :: (renderJson e2 ++ renderArrTail es')
            from rfl,
          List.cons_append, parseArrRest.eq_def]
        dsimp only
        rw [ih.1 e _ hse (by omega) (Or.inr ⟨',', _, rfl, by decide⟩)]
        dsimp only
        rw [skipWs_cons_of _ (by decide)]
        split
        · rename_i rem2 heq
          injection heq with _ h2
          subst h2
          rw [List.append_assoc, ih.2.1 e2 es' (acc ++ [e]) rest hse2 hsl' (by omega) hr]
          simp only [List.append_assoc, List.singleton_append]
        · rename_i rem2 heq
          injection heq with h1 _
          exact absurd h1 (by decide)
        · rename_i h1 h2
          exact absurd rfl (h1 _)
    · -- parseObjRest on rendered fields
      intro k v fs acc rest hk hv hsf hsorted hacc hf hr
      have hlt : ∀ p ∈ acc, keyLt p.1 k = true :=
        fun p hp => hacc p hp (k, v) (List.mem_cons_self _ _)
      cases fs with
      | nil =>
        rw [show renderFieldsTail ([] : List (Str × Json)) = ([] : Str) from rfl,
          List.nil_append,
          show renderField (k, v) = '"' :: (k ++ ['"', ':'] ++ renderJson v) from rfl]
        simp only [List.cons_append, List.append_assoc, List.nil_append]
        rw [parseObjRest.eq_def]
        dsimp only
        rw [skipWs_cons_of _ (by decide)]
        split
        · rename_i r heq
          injection heq with _ h2
          subst h2
          rw [parseStringBody_append k _ hk]
          dsimp only
          rw [skipWs_cons_of _ (by decide)]
          split
          · rename_i rem2 heq2
            injection heq2 with _ h3
            subst h3
            rw [ih.1 v ('}' :: rest) hv (by omega) (Or.inr ⟨'}', rest, rfl, by decide⟩)]
            dsimp only
            rw [objInsert_append acc k v hlt, skipWs_cons_of _ (by decide)]
            rfl
          · rename_i hcon
            exact absurd rfl (hcon _)
        · rename_i hcon
          exact absurd rfl (hcon _)
      | cons f2 fs' =>
        obtain ⟨k2, v2⟩ := f2
        rw [show safeFieldsF ((k2, v2) :: fs') =
            (k2.all safeChar && safeJson v2 && safeFieldsF fs') from rfl] at hsf
        obtain ⟨hkv2, hsf'⟩ := Bool.and_eq_true _ _ |>.mp hsf
        obtain ⟨hk2, hv2⟩ := Bool.and_eq_true _ _ |>.mp hkv2
        rw [show jsonFuelF ((k2, v2) :: fs') = jsonFuel v2 + jsonFuelF fs' + 1 from rfl] at hf
        have hpv := jsonFuel_pos v
        rw [show renderFieldsTail ((k2, v2) :: fs') =
            ',' :: (renderField (k2, v2) ++ renderFieldsTail fs') from rfl,
          show renderField (k, v) = '"' :: (k ++ ['"', ':'] ++ renderJson v) from rfl]
        simp only [List.cons_append, List.append_assoc, List.nil_append]
        rw [parseObjRest.eq_def]
        dsimp only
        rw [skipWs_cons_of _ (by decide)]
        split
        · rename_i r heq
          injection heq with _ h2
          subst h2
          rw [parseStringBody_append k _ hk]
          dsimp only
          rw [skipWs_cons_of _ (by decide)]
          split
          · rename_i rem2 heq2
            injection heq2 with _ h3
            subst h3
            rw [ih.1 v _ hv (by omega) (Or.inr ⟨',', _, rfl, by decide⟩)]
            dsimp only
            rw [objInsert_append acc k v hlt, skipWs_cons_of _ (by decide)]
            split
            · rename_i rem4 heq4
              injection heq4 with _ h5
              subst h5
              rw [ih.2.2 k2 v2 fs' (acc ++ [(k, v)]) rest hk2 hv2 hsf'
                (keysSorted_tail hsorted)
                (fun p hp q hq => by
                  rcases List.mem_append.mp hp with hp1 | hp2
                  · exact hacc p hp1 q (List.mem_cons_of_mem _ hq)
                  · rw [List.mem_singleton] at hp2
                    subst hp2
                    exact keysSorted_forall _ k v hsorted q hq)
                (by omega) hr]
              simp only [List.append_assoc, List.singleton_append]
            · rename_i rem4 heq4
              injection heq4 with h4 _
              exact absurd h4 (by decide)
            · rename_i h4 h5
              exact absurd rfl (h4 _)
          · rename_i hcon
            exact absurd rfl (hcon _)
        · rename_i hcon
          exact absurd rfl (hcon _)


/-! ### Occurrence analysis for the fence scanner -/

theorem noChar_no_match {x : Char} (p s : Str) (h : ∀ c ∈ s, c ≠ x) (j : Nat) :
    ((x :: p).isPrefixOf (s.drop j)) = false := by
  rw [Bool.eq_false_iff]
  intro hpre
  rw [List.isPrefixOf_iff_prefix] at hpre
  cases hd : s.drop j with
  | nil =>
    rw [hd] at hpre
    obtain ⟨t, ht⟩ := hpre
    exact absurd ht (by simp)
  | cons d tl =>
    rw [hd] at hpre
    have h1 := prefix_cons_head hpre
    have hdm : d ∈ s := List.drop_subset j s (hd ▸ List.mem_cons_self d tl)
    exact h d hdm h1.symm

theorem occursAt_shift (pat u v : Str) (m : Nat) :
    occursAt pat (u ++ v) (u.length + m) ↔ occursAt pat v m := by
  rw [occursAt, occursAt]
  rw [List.drop_append]

theorem findSubstr_shift (pat u v : Str)
    (h : ∀ j, j < u.length → ¬ occursAt pat (u ++ v) j) :
    findSubstr pat (u ++ v) = (findSubstr pat v).map (· + u.length) := by
  cases hv : findSubstr pat v with
  | none =>
    rw [Option.map_none']
    rw [findSubstr_none_iff] at hv ⊢
    intro j
    rcases Nat.lt_or_ge j u.length with hj | hj
    · exact h j hj
    · obtain ⟨m, rfl⟩ : ∃ m, j = u.length + m := ⟨j - u.length, by omega⟩
      rw [occursAt_shift]
      exact hv m
  | some m =>
    obtain ⟨h1, h2⟩ := (findSubstr_some_iff pat v m).mp hv
    rw [Option.map_some']
    rw [findSubstr_some_iff]
    refine ⟨?_, ?_⟩
    · rw [Nat.add_comm m u.length, occursAt_shift]
      exact h1
    · intro j hj
      rcases Nat.lt_or_ge j u.length with hju | hju
      · exact h j hju
      · obtain ⟨m', rfl⟩ : ∃ m', j = u.length + m' := ⟨j - u.length, by omega⟩
        rw [occursAt_shift]
        exact h2 m' (by omega)


/-! ### Brace balance of rendered JSON -/

theorem braceDelta_append : ∀ a b : Str, braceDelta (a ++ b) = braceDelta a + braceDelta b := by
  intro a b
  induction a with
  | nil => simp [braceDelta]
  | cons c t ih => rw [List.cons_append, braceDelta, braceDelta, ih]; ring

theorem Balanced_nil : Balanced [] :=
  ⟨rfl, fun n => by simp [braceDelta]⟩

theorem Balanced_cons_zero {c : Char} {X : Str} (hc : charDelta c = 0) (h : Balanced X) :
    Balanced (c :: X) := by
  refine ⟨?_, ?_⟩
  · rw [braceDelta, hc, h.1]
    rfl
  · intro n
    cases n with
    | zero => simp [braceDelta]
    | succ n =>
      rw [List.take_succ_cons, braceDelta, hc]
      have := h.2 n
      omega

theorem Balanced_append {a b : Str} (h1 : Balanced a) (h2 : Balanced b) :
    Balanced (a ++ b) := by
  refine ⟨?_, ?_⟩
  · rw [braceDelta_append, h1.1, h2.1]
    rfl
  · intro n
    rw [List.take_append_eq_append_take, braceDelta_append]
    have ha := h1.2 n
    have hb := h2.2 (n - a.length)
    omega

theorem Balanced_of_zero : ∀ s : Str, (∀ c ∈ s, charDelta c = 0) → Balanced s := by
  intro s
  induction s with
  | nil => intro _; exact Balanced_nil
  | cons c t ih =>
    intro h
    exact Balanced_cons_zero (h c (List.mem_cons_self _ _))
      (ih (fun d hd => h d (List.mem_cons_of_mem _ hd)))

theorem Balanced_braces (mid : Str) (h : Balanced mid) :
    Balanced ('{' :: (mid ++ ['}'])) := by
  refine ⟨?_, ?_⟩
  · rw [braceDelta, braceDelta_append, h.1]
    rfl
  · intro n
    cases n with
    | zero => simp [braceDelta]
    | succ n =>
      rw [List.take_succ_cons, braceDelta, List.take_append_eq_append_take, braceDelta_append]
      have h2 := h.2 n
      have h3 : braceDelta (List.take (n - mid.length) ['}']) = 0 ∨
          braceDelta (List.take (n - mid.length) ['}']) = -1 := by
        cases hk : n - mid.length with
        | zero => left; rfl
        | succ k =>
          right
          rw [List.take_succ_cons, List.take_nil]
          decide
      have h4 : charDelta '{' = 1 := rfl
      omega

theorem chars_append {P : Char → Prop} {a b : Str} (h1 : ∀ c ∈ a, P c) (h2 : ∀ c ∈ b, P c) :
    ∀ c ∈ a ++ b, P c :=
  fun c hc => (List.mem_append.mp hc).elim (h1 c) (h2 c)

theorem chars_cons {P : Char → Prop} {a : Char} {b : Str} (h1 : P a) (h2 : ∀ c ∈ b, P c) :
    ∀ c ∈ a :: b, P c := by
  intro c hc
  rcases List.mem_cons.mp hc with rfl | hc'
  · exact h1
  · exact h2 c hc'

theorem safeChar_not_lt {c : Char} (h : safeChar c = true) : c ≠ '<' := by
  intro hc; rw [hc] at h; exact absurd h (by decide)

theorem renderField_props (k : Str) (v : Json) (hk : k.all safeChar = true)
    (hv : Balanced (renderJson v) ∧ (∀ ch ∈ renderJson v, ch ≠ '`' ∧ ch ≠ '<') ∧
      jsonFuel v ≤ (renderJson v).length) :
    Balanced (renderField (k, v)) ∧
      (∀ ch ∈ renderField (k, v), ch ≠ '`' ∧ ch ≠ '<') ∧
      jsonFuel v + 3 ≤ (renderField (k, v)).length := by
  rw [List.all_eq_true] at hk
  rw [show renderField (k, v) = '"' :: (k ++ ['"', ':'] ++ renderJson v) from rfl]
  refine ⟨?_, ?_, ?_⟩
  · exact Balanced_cons_zero (by rfl)
      (Balanced_append
        (Balanced_of_zero _ (chars_append
          (fun c hc => safeChar_delta (hk c hc)) (by decide)))
        hv.1)
  · exact chars_cons (by decide)
      (chars_append (chars_append
        (fun c hc => ⟨safeChar_not_backtick (hk c hc), safeChar_not_lt (hk c hc)⟩)
        (by decide)) hv.2.1)
  · have := hv.2.2
    simp only [List.length_cons, List.length_append]
    omega

theorem renderProps : ∀ n : Nat,
    (∀ j : Json, safeJson j = true → jsonFuel j ≤ n →
      Balanced (renderJson j) ∧ (∀ ch ∈ renderJson j, ch ≠ '`' ∧ ch ≠ '<') ∧
        jsonFuel j ≤ (renderJson j).length) ∧
    (∀ es : List Json, safeJsonL es = true → jsonFuelL es ≤ n →
      Balanced (renderArrTail es) ∧ (∀ ch ∈ renderArrTail es, ch ≠ '`' ∧ ch ≠ '<') ∧
        jsonFuelL es ≤ (renderArrTail es).length) ∧
    (∀ fs : List (Str × Json), safeFieldsF fs = true → jsonFuelF fs ≤ n →
      Balanced (renderFieldsTail fs) ∧
        (∀ ch ∈ renderFieldsTail fs, ch ≠ '`' ∧ ch ≠ '<') ∧
        jsonFuelF fs ≤ (renderFieldsTail fs).length) := by
  intro n
  induction n with
  | zero =>
    refine ⟨?_, ?_, ?_⟩
    · intro j _ hf
      exact absurd hf (by have := jsonFuel_pos j; omega)
    · intro es _ hf
      cases es with
      | nil => exact ⟨Balanced_nil, by intro c hc; exact absurd hc (List.not_mem_nil c), by rfl⟩
      | cons e es' =>
        rw [show jsonFuelL (e :: es') = jsonFuel e + jsonFuelL es' + 1 from rfl] at hf
        exact absurd hf (by omega)
    · intro fs _ hf
      cases fs with
      | nil => exact ⟨Balanced_nil, by intro c hc; exact absurd hc (List.not_mem_nil c), by rfl⟩
      | cons f fs' =>
        obtain ⟨k, v⟩ := f
        rw [show jsonFuelF ((k, v) :: fs') = jsonFuel v + jsonFuelF fs' + 1 from rfl] at hf
        exact absurd hf (by omega)
  | succ n ih =>
    refine ⟨?_, ?_, ?_⟩
    · intro j hs hf
      cases j with
      | null => exact ⟨Balanced_of_zero _ (by decide), by decide, by decide⟩
      | bool b =>
        cases b with
        | true => exact ⟨Balanced_of_zero _ (by decide), by decide, by decide⟩
        | false => exact ⟨Balanced_of_zero _ (by decide), by decide, by decide⟩
      | num raw =>
        rw [show safeJson (Json.num raw) = (!raw.isEmpty && raw.all Char.isDigit) from rfl] at hs
        obtain ⟨hne, hall⟩ := Bool.and_eq_true _ _ |>.mp hs
        rw [List.all_eq_true] at hall
        rw [show renderJson (Json.num raw) = raw from rfl]
        refine ⟨Balanced_of_zero _ (fun c hc => digit_delta (hall c hc)),
          fun c hc => ⟨digit_ne_of (hall c hc) (by decide), digit_ne_of (hall c hc) (by decide)⟩,
          ?_⟩
        rw [show jsonFuel (Json.num raw) = 1 from rfl]
        cases raw with
        | nil => exact absurd hne (by decide)
        | cons c t => simp
      | str str0 =>
        rw [show safeJson (Json.str str0) = str0.all safeChar from rfl] at hs
        rw [List.all_eq_true] at hs
        rw [show renderJson (Json.str str0) = '"' :: (str0 ++ ['"']) from rfl]
        refine ⟨?_, ?_, ?_⟩
        · exact Balanced_of_zero _ (chars_cons (by decide)
            (chars_append (fun c hc => safeChar_delta (hs c hc)) (by decide)))
        · exact chars_cons (by decide) (chars_append
            (fun c hc => ⟨safeChar_not_backtick (hs c hc), safeChar_not_lt (hs c hc)⟩)
            (by decide))
        · rw [show jsonFuel (Json.str str0) = 1 from rfl]
          simp
      | arr l =>
        cases l with
        | nil => exact ⟨Balanced_of_zero _ (by decide), by decide, by decide⟩
        | cons e es =>
          rw [show safeJson (Json.arr (e :: es)) = (safeJson e && safeJsonL es) from rfl] at hs
          obtain ⟨hse, hsl⟩ := Bool.and_eq_true _ _ |>.mp hs
          rw [show jsonFuel (Json.arr (e :: es)) = jsonFuel e + jsonFuelL es + 1 + 1 from rfl]
            at hf ⊢
          obtain ⟨b1, c1, f1⟩ := ih.1 e hse (by omega)
          obtain ⟨b2, c2, f2⟩ := ih.2.1 es hsl (by omega)
          rw [show renderJson (Json.arr (e :: es)) =
            '[' :: (renderJson e ++ renderArrTail es ++ [']']) from rfl]
          refine ⟨?_, ?_, ?_⟩
          · exact Balanced_cons_zero (by rfl)
              (Balanced_append (Balanced_append b1 b2) (Balanced_of_zero _ (by decide)))
          · exact chars_cons (by decide)
              (chars_append (chars_append c1 c2) (by decide))
          · simp only [List.length_cons, List.length_append]
            omega
      | obj fs =>
        cases fs with
        | nil => exact ⟨Balanced_braces [] Balanced_nil, by decide, by decide⟩
        | cons f fs' =>
          obtain ⟨k, v⟩ := f
          rw [show safeJson (Json.obj ((k, v) :: fs')) =
              (keysSortedF ((k, v) :: fs') && safeFieldsF ((k, v) :: fs')) from rfl] at hs
          obtain ⟨_, hsf⟩ := Bool.and_eq_true _ _ |>.mp hs
          rw [show safeFieldsF ((k, v) :: fs') =
              (k.all safeChar && safeJson v && safeFieldsF fs') from rfl] at hsf
          obtain ⟨hkv, hsf'⟩ := Bool.and_eq_true _ _ |>.mp hsf
          obtain ⟨hk, hv⟩ := Bool.and_eq_true _ _ |>.mp hkv
          rw [show jsonFuel (Json.obj ((k, v) :: fs')) =
            jsonFuel v + jsonFuelF fs' + 1 + 1 from rfl] at hf ⊢
          obtain ⟨b1, c1, f1⟩ := renderField_props k v hk (ih.1 v hv (by omega))
          obtain ⟨b2, c2, f2⟩ := ih.2.2 fs' hsf' (by omega)
          rw [show renderJson (Json.obj ((k, v) :: fs')) =
            '{' :: (renderField (k, v) ++ renderFieldsTail fs' ++ ['}']) from rfl]
          refine ⟨Balanced_braces _ (Balanced_append b1 b2), ?_, ?_⟩
          · exact chars_cons (by decide)
              (chars_append (chars_append c1 c2) (by decide))
          · simp only [List.length_cons, List.length_append]
            omega
    · intro es hsl hf
      cases es with
      | nil => exact ⟨Balanced_nil, by intro c hc; exact absurd hc (List.not_mem_nil c), by rfl⟩
      | cons e es' =>
        rw [show safeJsonL (e :: es') = (safeJson e && safeJsonL es') from rfl] at hsl
        obtain ⟨hse, hsl'⟩ := Bool.and_eq_true _ _ |>.mp hsl
        rw [show jsonFuelL (e :: es') = jsonFuel e + jsonFuelL es' + 1 from rfl] at hf ⊢
        obtain ⟨b1, c1, f1⟩ := ih.1 e hse (by omega)
        obtain ⟨b2, c2, f2⟩ := ih.2.1 es' hsl' (by omega)
        rw [show renderArrTail (e :: es') = ',' :: (renderJson e ++ renderArrTail es')
          from rfl]
        refine ⟨Balanced_cons_zero (by rfl) (Balanced_append b1 b2),
          chars_cons (by decide) (chars_append c1 c2), ?_⟩
        simp only [List.length_cons, List.length_append]
        omega
    · intro fs hsf hf
      cases fs with
      | nil => exact ⟨Balanced_nil, by intro c hc; exact absurd hc (List.not_mem_nil c), by rfl⟩
      | cons f fs' =>
        obtain ⟨k, v⟩ := f
        rw [show safeFieldsF ((k, v) :: fs') =
            (k.all safeChar && safeJson v && safeFieldsF fs') from rfl] at hsf
        obtain ⟨hkv, hsf'⟩ := Bool.and_eq_true _ _ |>.mp hsf
        obtain ⟨hk, hv⟩ := Bool.and_eq_true _ _ |>.mp hkv
        rw [show jsonFuelF ((k, v) :: fs') = jsonFuel v + jsonFuelF fs' + 1 from rfl] at hf ⊢
        obtain ⟨b1, c1, f1⟩ := renderField_props k v hk (ih.1 v hv (by omega))
        obtain ⟨b2, c2, f2⟩ := ih.2.2 fs' hsf' (by omega)
        rw [show renderFieldsTail ((k, v) :: fs') =
          ',' :: (renderField (k, v) ++ renderFieldsTail fs') from rfl]
        refine ⟨Balanced_cons_zero (by rfl) (Balanced_append b1 b2),
          chars_cons (by decide) (chars_append c1 c2), ?_⟩
        simp only [List.length_cons, List.length_append]
        omega


/-! ### Round trip of a rendered tool call through the JSON pipeline -/

theorem trimStr_wrap (x y : Char) (m : Str) (hx : isWsChar x = false)
    (hy : isWsChar y = false) :
    trimStr ('\n' :: ((x :: (m ++ [y])) ++ ['\n'])) = x :: (m ++ [y]) := by
  have hxx : ¬ (isWsChar x = true) := by rw [hx]; exact fun h => Bool.noConfusion h
  have hyy : ¬ (isWsChar y = true) := by rw [hy]; exact fun h => Bool.noConfusion h
  rw [trimStr]
  rw [List.dropWhile_cons, if_pos (show isWsChar '\n' = true from rfl)]
  rw [List.cons_append, List.dropWhile_cons, if_neg hxx]
  rw [List.reverse_cons, List.reverse_append, List.reverse_append]
  simp only [List.reverse_cons, List.reverse_nil, List.nil_append, List.cons_append,
    List.append_assoc]
  rw [List.dropWhile_cons, if_pos (show isWsChar '\n' = true from rfl)]
  rw [List.dropWhile_cons, if_neg hyy]
  simp only [List.reverse_cons, List.reverse_append, List.reverse_reverse, List.reverse_nil,
    List.nil_append, List.cons_append, List.append_assoc]

theorem safeJson_toolObj (c : ToolCall) (h : SafeCall c = true) :
    safeJson (Json.obj [(("arguments".toList), c.arguments),
      (("name".toList), Json.str c.name)]) = true := by
  rw [show SafeCall c = (c.name.all safeChar && safeJson c.arguments) from rfl] at h
  obtain ⟨hn, ha⟩ := Bool.and_eq_true _ _ |>.mp h
  rw [show safeJson (Json.obj [(("arguments".toList), c.arguments),
      (("name".toList), Json.str c.name)]) =
    (keysSortedF [(("arguments".toList), c.arguments), (("name".toList), Json.str c.name)] &&
      safeFieldsF [(("arguments".toList), c.arguments), (("name".toList), Json.str c.name)])
    from rfl]
  rw [show keysSortedF [(("arguments".toList), c.arguments),
      (("name".toList), Json.str c.name)] =
    (keyLt ("arguments".toList) ("name".toList) &&
      keysSortedF [(("name".toList), Json.str c.name)]) from rfl]
  rw [show keysSortedF [(("name".toList), Json.str c.name)] = true from rfl]
  rw [show safeFieldsF [(("arguments".toList), c.arguments),
      (("name".toList), Json.str c.name)] =
    (("arguments".toList).all safeChar && safeJson c.arguments &&
      safeFieldsF [(("name".toList), Json.str c.name)]) from rfl]
  rw [show safeFieldsF [(("name".toList), Json.str c.name)] =
    (("name".toList).all safeChar && safeJson (Json.str c.name) && true) from rfl]
  rw [show safeJson (Json.str c.name) = c.name.all safeChar from rfl]
  rw [ha, hn]
  decide

theorem jsonFuel_toolObj_le (c : ToolCall) (h : SafeCall c = true) :
    jsonFuel (Json.obj [(("arguments".toList), c.arguments),
      (("name".toList), Json.str c.name)]) ≤ (renderToolJson c).length + 1 := by
  have hs := safeJson_toolObj c h
  have := ((renderProps (jsonFuel (Json.obj [(("arguments".toList), c.arguments),
    (("name".toList), Json.str c.name)]))).1 _ hs (le_refl _)).2.2
  rw [renderToolJson]
  omega

theorem parseJsonStr_render (c : ToolCall) (h : SafeCall c = true) :
    parseJsonStr (renderToolJson c) =
      some (Json.obj [(("arguments".toList), c.arguments),
        (("name".toList), Json.str c.name)]) := by
  have hs := safeJson_toolObj c h
  have hfuel := jsonFuel_toolObj_le c h
  have hpv := (rtAll ((renderToolJson c).length + 1)).1
    (Json.obj [(("arguments".toList), c.arguments), (("name".toList), Json.str c.name)])
    [] hs hfuel (Or.inl rfl)
  rw [List.append_nil] at hpv
  rw [parseJsonStr, show renderToolJson c =
    renderJson (Json.obj [(("arguments".toList), c.arguments),
      (("name".toList), Json.str c.name)]) from rfl]
  rw [show (renderJson (Json.obj [(("arguments".toList), c.arguments),
      (("name".toList), Json.str c.name)])).length = (renderToolJson c).length from rfl]
  rw [hpv]
  rfl

theorem toolCallOfJson_toolObj (c : ToolCall) :
    toolCallOfJson (Json.obj [(("arguments".toList), c.arguments),
      (("name".toList), Json.str c.name)]) = some c := by
  obtain ⟨n, a⟩ := c
  rfl

theorem parseToolCallStr_render (c : ToolCall) (h : SafeCall c = true) :
    parseToolCallStr (renderToolJson c) = some c := by
  rw [parseToolCallStr, parseJsonStr_render c h]
  exact toolCallOfJson_toolObj c

theorem sameCall_refl (c : ToolCall) : sameCall c c = true := by
  rw [sameCall]
  simp


/-! ### The balanced-brace scan over assembled text -/

theorem braceFold_noOpen : ∀ (s : Str) (d : Int) (calls : List ToolCall),
    (∀ c ∈ s, c ≠ '{') →
    ∃ d', List.foldl braceStep ⟨d, none, calls⟩ s = ⟨d', none, calls⟩ := by
  intro s
  induction s with
  | nil => intro d calls _; exact ⟨d, rfl⟩
  | cons c t ih =>
    intro d calls h
    rw [List.foldl_cons]
    have hc : c ≠ '{' := h c (List.mem_cons_self _ _)
    have hstep : ∃ d1, braceStep ⟨d, none, calls⟩ c = ⟨d1, none, calls⟩ := by
      rw [braceStep, if_neg hc]
      by_cases h2 : c = '}'
      · rw [if_pos h2]
        dsimp only
        by_cases h3 : (d - 1 : Int) = 0
        · rw [if_pos h3]
          exact ⟨d - 1, rfl⟩
        · rw [if_neg h3]
          exact ⟨d - 1, rfl⟩
      · rw [if_neg h2]
        exact ⟨d, rfl⟩
    obtain ⟨d1, hd1⟩ := hstep
    rw [hd1]
    exact ih d1 calls (fun c' hc' => h c' (List.mem_cons_of_mem _ hc'))

theorem braceFold_inert : ∀ (s : Str) (calls : List ToolCall),
    (∀ c ∈ s, c ≠ '{' ∧ c ≠ '}') →
    List.foldl braceStep ⟨0, none, calls⟩ s = ⟨0, none, calls⟩ := by
  intro s
  induction s with
  | nil => intro calls _; rfl
  | cons c t ih =>
    intro calls h
    rw [List.foldl_cons]
    have hstep : braceStep ⟨0, none, calls⟩ c = ⟨0, none, calls⟩ := by
      rw [braceStep, if_neg (h c (List.mem_cons_self _ _)).1,
        if_neg (h c (List.mem_cons_self _ _)).2]
      rfl
    rw [hstep]
    exact ih calls (fun c' hc' => h c' (List.mem_cons_of_mem _ hc'))

theorem braceFold_buf : ∀ (m : Str) (d : Int) (b : Str) (calls : List ToolCall),
    (∀ n : Nat, n ≤ m.length → 1 ≤ d + braceDelta (m.take n)) →
    List.foldl braceStep ⟨d, some b, calls⟩ m = ⟨d + braceDelta m, some (b ++ m), calls⟩ := by
  intro m
  induction m with
  | nil =>
    intro d b calls _
    rw [List.foldl_nil]
    simp [braceDelta]
  | cons c t ih =>
    intro d b calls h
    have hd : 1 ≤ d := by
      have := h 0 (by omega)
      simpa [braceDelta] using this
    rw [List.foldl_cons]
    by_cases h1 : c = '{'
    · subst h1
      have hstep : braceStep ⟨d, some b, calls⟩ '{' = ⟨d + 1, some (b ++ ['{']), calls⟩ := by
        rw [braceStep, if_pos rfl]
        dsimp only
        rw [if_neg (show ¬ (d = 0) from by omega)]
        rfl
      rw [hstep]
      rw [ih (d + 1) (b ++ ['{']) calls (by
        intro n hn
        have := h (n + 1) (by simp; omega)
        rw [List.take_succ_cons, braceDelta] at this
        have hc1 : charDelta '{' = 1 := rfl
        omega)]
      have e1 : d + 1 + braceDelta t = d + braceDelta ('{' :: t) := by
        rw [braceDelta]
        have hc1 : charDelta '{' = 1 := rfl
        omega
      have e2 : (b ++ ['{']) ++ t = b ++ '{' :: t := by simp
      rw [e1, e2]
    · by_cases h2 : c = '}'
      · subst h2
        have hd2 : 1 ≤ d - 1 := by
          have := h 1 (by simp)
          rw [List.take_succ_cons, List.take_zero, braceDelta, braceDelta] at this
          have hc1 : charDelta '}' = -1 := rfl
          omega
        have hstep : braceStep ⟨d, some b, calls⟩ '}' =
            ⟨d - 1, some (b ++ ['}']), calls⟩ := by
          rw [braceStep, if_neg (by decide), if_pos rfl]
          dsimp only
          rw [if_neg (show ¬ (d - 1 : Int) = 0 from by omega)]
          rfl
        rw [hstep]
        rw [ih (d - 1) (b ++ ['}']) calls (by
          intro n hn
          have := h (n + 1) (by simp; omega)
          rw [List.take_succ_cons, braceDelta] at this
          have hc1 : charDelta '}' = -1 := rfl
          omega)]
        have e1 : d - 1 + braceDelta t = d + braceDelta ('}' :: t) := by
          rw [braceDelta]
          have hc1 : charDelta '}' = -1 := rfl
          omega
        have e2 : (b ++ ['}']) ++ t = b ++ '}' :: t := by simp
        rw [e1, e2]
      · have hstep : braceStep ⟨d, some b, calls⟩ c = ⟨d, some (b ++ [c]), calls⟩ := by
          rw [braceStep, if_neg h1, if_neg h2]
          rfl
        rw [hstep]
        have hc0 : charDelta c = 0 := by
          rw [charDelta, if_neg h1, if_neg h2]
        rw [ih d (b ++ [c]) calls (by
          intro n hn
          have := h (n + 1) (by simp; omega)
          rw [List.take_succ_cons, braceDelta, hc0] at this
          omega)]
        have e1 : d + braceDelta t = d + braceDelta (c :: t) := by
          rw [braceDelta, hc0]
          omega
        have e2 : (b ++ [c]) ++ t = b ++ c :: t := by simp
        rw [e1, e2]

theorem braceFold_object (mid : Str) (calls : List ToolCall) (hb : Balanced mid) :
    List.foldl braceStep ⟨0, none, calls⟩ ('{' :: (mid ++ ['}'])) =
      ⟨0, none, pushBrace calls ('{' :: (mid ++ ['}']))⟩ := by
  rw [List.foldl_cons]
  have hstep : braceStep ⟨0, none, calls⟩ '{' = ⟨1, some ['{'], calls⟩ := by
    rw [braceStep, if_pos rfl]
    dsimp only
    rw [if_pos rfl]
    rfl
  rw [hstep, List.foldl_append]
  rw [braceFold_buf mid 1 ['{'] calls (by
    intro n hn
    have := hb.2 n
    omega)]
  rw [hb.1]
  rw [List.foldl_cons, List.foldl_nil]
  have hlast : braceStep ⟨1 + 0, some (['{'] ++ mid), calls⟩ '}' =
      ⟨0, none, pushBrace calls ('{' :: (mid ++ ['}']))⟩ := by
    rw [braceStep, if_neg (by decide), if_pos rfl]
    dsimp only
    rw [if_pos (show ((1 : Int) + 0 - 1) = 0 from by decide)]
    have e2 : (['{'] ++ mid) ++ ['}'] = '{' :: (mid ++ ['}']) := by simp
    rw [e2]
    have e3 : ((1 : Int) + 0 - 1) = 0 := by decide
    rw [e3]
  rw [hlast]

theorem pushBrace_render_mem (calls : List ToolCall) (c : ToolCall)
    (h : SafeCall c = true) (hm : c ∈ calls) :
    pushBrace calls (renderToolJson c) = calls := by
  rw [pushBrace.eq_def]
  rw [show renderToolJson c = renderJson (Json.obj [(("arguments".toList), c.arguments),
    (("name".toList), Json.str c.name)]) from rfl]
  rw [show parseJsonStr (renderJson (Json.obj [(("arguments".toList), c.arguments),
      (("name".toList), Json.str c.name)])) =
    some (Json.obj [(("arguments".toList), c.arguments),
      (("name".toList), Json.str c.name)]) from parseJsonStr_render c h]
  dsimp only
  rw [toolCallOfJson_toolObj]
  dsimp only
  have hany : (calls.any fun c1 => sameCall c1 c) = true :=
    List.any_eq_true.mpr ⟨c, hm, sameCall_refl c⟩
  rw [if_pos hany]


theorem safeSep_chars {s : Str} (h : SafeSep s = true) :
    ∀ c ∈ s, c ≠ '`' ∧ c ≠ '{' ∧ c ≠ '}' ∧ c ≠ '<' := by
  rw [show SafeSep s = ((s.all fun c => !(c = '`') && !(c = '{') && !(c = '}') && !(c = '<'))
    && !(("tool".toList).isPrefixOf s)) from rfl] at h
  obtain ⟨h1, _⟩ := Bool.and_eq_true _ _ |>.mp h
  rw [List.all_eq_true] at h1
  intro c hc
  have h2 := h1 c hc
  simp only [Bool.and_eq_true, Bool.not_eq_true', decide_eq_false_iff_not] at h2
  exact ⟨h2.1.1.1, h2.1.1.2, h2.1.2, h2.2⟩

theorem safeSep_not_tool {s : Str} (h : SafeSep s = true) :
    ("tool".toList).isPrefixOf s = false := by
  rw [show SafeSep s = ((s.all fun c => !(c = '`') && !(c = '{') && !(c = '}') && !(c = '<'))
    && !(("tool".toList).isPrefixOf s)) from rfl] at h
  obtain ⟨_, h2⟩ := Bool.and_eq_true _ _ |>.mp h
  rw [Bool.not_eq_true'] at h2
  exact h2

theorem renderToolJson_shape (c : ToolCall) :
    renderToolJson c = '{' :: ((renderField (("arguments".toList), c.arguments) ++
      renderFieldsTail [(("name".toList), Json.str c.name)]) ++ ['}']) := rfl

theorem renderToolJson_mid_balanced (c : ToolCall) (h : SafeCall c = true) :
    Balanced (renderField (("arguments".toList), c.arguments) ++
      renderFieldsTail [(("name".toList), Json.str c.name)]) := by
  rw [show SafeCall c = (c.name.all safeChar && safeJson c.arguments) from rfl] at h
  obtain ⟨hn, ha⟩ := Bool.and_eq_true _ _ |>.mp h
  have hfield := renderField_props ("arguments".toList) c.arguments (by decide)
    ((renderProps (jsonFuel c.arguments)).1 c.arguments ha (le_refl _))
  have htail := (renderProps (jsonFuelF [(("name".toList), Json.str c.name)])).2.2
    [(("name".toList), Json.str c.name)]
    (by
      rw [show safeFieldsF [(("name".toList), Json.str c.name)] =
        (("name".toList).all safeChar && safeJson (Json.str c.name) && true) from rfl]
      rw [show safeJson (Json.str c.name) = c.name.all safeChar from rfl]
      rw [hn]
      decide)
    (le_refl _)
  exact Balanced_append hfield.1 htail.1

theorem renderBlock_eq (c : ToolCall) :
    renderBlock c = ("```tool\n".toList ++ renderToolJson c) ++ "\n```".toList := rfl

theorem braceFold_block (c : ToolCall) (calls : List ToolCall)
    (h : SafeCall c = true) (hm : c ∈ calls) :
    List.foldl braceStep ⟨0, none, calls⟩ (renderBlock c) = ⟨0, none, calls⟩ := by
  rw [renderBlock_eq, List.foldl_append, List.foldl_append]
  rw [braceFold_inert ("```tool\n".toList) calls (by decide)]
  rw [renderToolJson_shape]
  rw [braceFold_object _ calls (renderToolJson_mid_balanced c h)]
  rw [← renderToolJson_shape, pushBrace_render_mem calls c h hm]
  exact braceFold_inert ("\n```".toList) calls (by decide)

theorem braceFold_assembled : ∀ (pairs : List (ToolCall × Str)) (sep : Str)
    (calls : List ToolCall),
    SafeSep sep = true →
    (∀ p ∈ pairs, SafeCall p.1 = true ∧ SafeSep p.2 = true) →
    (∀ p ∈ pairs, p.1 ∈ calls) →
    List.foldl braceStep ⟨0, none, calls⟩ (assemble sep pairs) = ⟨0, none, calls⟩ := by
  intro pairs
  induction pairs with
  | nil =>
    intro sep calls hsep _ _
    rw [show assemble sep [] = sep from rfl]
    exact braceFold_inert sep calls (fun c hc => ⟨(safeSep_chars hsep c hc).2.1,
      (safeSep_chars hsep c hc).2.2.1⟩)
  | cons p ps ih =>
    obtain ⟨c, sep1⟩ := p
    intro sep calls hsep hall hmem
    rw [show assemble sep ((c, sep1) :: ps) = (sep ++ renderBlock c) ++ assemble sep1 ps
      from rfl]
    rw [List.foldl_append, List.foldl_append]
    rw [braceFold_inert sep calls (fun ch hc => ⟨(safeSep_chars hsep ch hc).2.1,
      (safeSep_chars hsep ch hc).2.2.1⟩)]
    rw [braceFold_block c calls (hall (c, sep1) (List.mem_cons_self _ _)).1
      (hmem (c, sep1) (List.mem_cons_self _ _))]
    exact ih sep1 calls (hall (c, sep1) (List.mem_cons_self _ _)).2
      (fun q hq => hall q (List.mem_cons_of_mem _ hq))
      (fun q hq => hmem q (List.mem_cons_of_mem _ hq))

theorem braceScan_assembled (pairs : List (ToolCall × Str)) (sep : Str)
    (calls : List ToolCall) (hsep : SafeSep sep = true)
    (hall : ∀ p ∈ pairs, SafeCall p.1 = true ∧ SafeSep p.2 = true)
    (hmem : ∀ p ∈ pairs, p.1 ∈ calls) :
    braceScan calls (assemble sep pairs) = calls := by
  rw [braceScan, braceFold_assembled pairs sep calls hsep hall hmem]


/-! ### Locating fence markers in assembled text -/

theorem noChar_no_occurs {x : Char} (p s : Str) (h : ∀ c ∈ s, c ≠ x) (j : Nat) :
    ¬ occursAt (x :: p) s j := by
  rw [occursAt]
  intro hx
  rw [noChar_no_match p s h j] at hx
  exact Bool.noConfusion hx

theorem noTick_prefix_region {p : Str} {u : Str} (v : Str) (h : ∀ c ∈ u, c ≠ '`')
    {j : Nat} (hj : j < u.length) : ¬ occursAt ('`' :: p) (u ++ v) j := by
  intro hocc
  rw [occursAt, List.isPrefixOf_iff_prefix] at hocc
  rw [List.drop_append_of_le_length (by omega)] at hocc
  cases hd : u.drop j with
  | nil =>
    have hlen : (u.drop j).length = u.length - j := List.length_drop _ _
    rw [hd] at hlen
    simp at hlen
    omega
  | cons d tl =>
    rw [hd, List.cons_append] at hocc
    have h1 := prefix_cons_head hocc
    have hdm : d ∈ u := List.drop_subset j u (hd ▸ List.mem_cons_self d tl)
    exact h d hdm h1.symm

theorem no_marker_in_ticks {t : Nat} (ht : t ≤ 3) (R : Str) (m : Nat) (hm : m < t)
    (hR : ∀ q, 1 ≤ q → q < 4 → ¬ ((("```tool".toList).drop q) <+: R)) :
    ¬ occursAt ("```tool".toList) (List.replicate t '`' ++ R) m := by
  intro hocc
  rw [occursAt, List.isPrefixOf_iff_prefix] at hocc
  rw [List.drop_append_of_le_length (by rw [List.length_replicate]; omega)] at hocc
  rw [List.drop_replicate] at hocc
  have hsplit := prefix_split_right hocc
    (by rw [List.length_replicate]; simp; omega)
  rw [List.length_replicate] at hsplit
  exact hR (t - m) (by omega) (by omega) hsplit

theorem marker_drop_not_prefix_base (sep : Str) (hsep : SafeSep sep = true) :
    ∀ q, 1 ≤ q → q < 4 → ¬ ((("```tool".toList).drop q) <+: sep) := by
  intro q hq1 hq4 hpre
  cases sep with
  | nil =>
    rw [List.prefix_nil] at hpre
    interval_cases q
    · exact absurd hpre (by decide)
    · exact absurd hpre (by decide)
    · exact absurd hpre (by decide)
  | cons d s' =>
    interval_cases q
    · have h1 := prefix_cons_head hpre
      exact (safeSep_chars hsep d (List.mem_cons_self _ _)).1 h1.symm
    · have h1 := prefix_cons_head hpre
      exact (safeSep_chars hsep d (List.mem_cons_self _ _)).1 h1.symm
    · have h2 := (List.isPrefixOf_iff_prefix).mpr hpre
      rw [show (("```tool".toList).drop 3) = "tool".toList from rfl] at h2
      rw [safeSep_not_tool hsep] at h2
      exact Bool.noConfusion h2

theorem marker_drop_not_prefix_step (sep r2 : Str) (hsep : SafeSep sep = true) :
    ∀ q, 1 ≤ q → q < 4 →
      ¬ ((("```tool".toList).drop q) <+: (sep ++ ("```tool\n".toList ++ r2))) := by
  intro q hq1 hq4 hpre
  cases sep with
  | nil =>
    rw [List.nil_append] at hpre
    have h := List.prefix_iff_eq_take.mp hpre
    rw [List.take_append_of_le_length (by interval_cases q <;> decide)] at h
    interval_cases q
    · exact absurd h (by decide)
    · exact absurd h (by decide)
    · exact absurd h (by decide)
  | cons d s' =>
    have hq3 : q = 1 ∨ q = 2 ∨ q = 3 := by omega
    rcases hq3 with rfl | rfl | rfl
    · have h1 := prefix_cons_head hpre
      exact (safeSep_chars hsep d (List.mem_cons_self _ _)).1 h1.symm
    · have h1 := prefix_cons_head hpre
      exact (safeSep_chars hsep d (List.mem_cons_self _ _)).1 h1.symm
    · rcases Nat.lt_or_ge (d :: s').length 4 with h4 | h4
      · have h5 := prefix_split_right hpre (by simp at h4 ⊢; omega)
        cases s' with
        | nil =>
          have h6 : (("```tool".toList).drop 3).drop ([d].length) <+:
              '`' :: ("``tool\n".toList ++ r2) := h5
          have h7 := prefix_cons_head h6
          exact absurd h7 (by decide)
        | cons e s2 =>
          cases s2 with
          | nil =>
            have h6 : (("```tool".toList).drop 3).drop ([d, e].length) <+:
                '`' :: ("``tool\n".toList ++ r2) := h5
            have h7 := prefix_cons_head h6
            exact absurd h7 (by decide)
          | cons f s3 =>
            cases s3 with
            | nil =>
              have h6 : (("```tool".toList).drop 3).drop ([d, e, f].length) <+:
                  '`' :: ("``tool\n".toList ++ r2) := h5
              have h7 := prefix_cons_head h6
              exact absurd h7 (by decide)
            | cons g s4 =>
              simp at h4
              omega
      · have h5 := prefix_split_left hpre (by simp at h4 ⊢; omega)
        have h6 := (List.isPrefixOf_iff_prefix).mpr h5
        rw [show (("```tool".toList).drop 3) = "tool".toList from rfl] at h6
        rw [safeSep_not_tool hsep] at h6
        exact Bool.noConfusion h6


theorem findSubstr_no_marker_base (pre sep : Str) (t : Nat)
    (hpre : ∀ c ∈ pre, c ≠ '`') (ht : t ≤ 3) (hsep : SafeSep sep = true) :
    findSubstr ("```tool".toList) (pre ++ (List.replicate t '`' ++ sep)) = none := by
  rw [findSubstr_none_iff]
  intro j
  rcases Nat.lt_or_ge j pre.length with h1 | h1
  · exact noTick_prefix_region _ hpre h1
  · obtain ⟨m, rfl⟩ : ∃ m, j = pre.length + m := ⟨j - pre.length, by omega⟩
    rw [occursAt_shift]
    rcases Nat.lt_or_ge m t with h2 | h2
    · exact no_marker_in_ticks ht sep m h2 (marker_drop_not_prefix_base sep hsep)
    · obtain ⟨m', rfl⟩ : ∃ m', m = (List.replicate t '`').length + m' :=
        ⟨m - t, by rw [List.length_replicate]; omega⟩
      rw [occursAt_shift]
      exact noChar_no_occurs _ sep (fun ch hc => (safeSep_chars hsep ch hc).1) m'

theorem findSubstr_marker_step (pre sep r2 : Str) (t : Nat)
    (hpre : ∀ c ∈ pre, c ≠ '`') (ht : t ≤ 3) (hsep : SafeSep sep = true) :
    findSubstr ("```tool".toList)
      (pre ++ (List.replicate t '`' ++ (sep ++ ("```tool\n".toList ++ r2)))) =
      some (pre.length + (t + sep.length)) := by
  rw [findSubstr_some_iff]
  constructor
  · have h0 : occursAt ("```tool".toList) ("```tool\n".toList ++ r2) 0 := by
      rw [occursAt, List.drop_zero, List.isPrefixOf_iff_prefix]
      exact ⟨'\n' :: r2, rfl⟩
    have h1 : occursAt ("```tool".toList) (sep ++ ("```tool\n".toList ++ r2))
        (sep.length + 0) := (occursAt_shift _ _ _ _).mpr h0
    have h2 : occursAt ("```tool".toList)
        (List.replicate t '`' ++ (sep ++ ("```tool\n".toList ++ r2)))
        ((List.replicate t '`').length + (sep.length + 0)) := (occursAt_shift _ _ _ _).mpr h1
    have h3 : occursAt ("```tool".toList)
        (pre ++ (List.replicate t '`' ++ (sep ++ ("```tool\n".toList ++ r2))))
        (pre.length + ((List.replicate t '`').length + (sep.length + 0))) :=
      (occursAt_shift _ _ _ _).mpr h2
    have he : pre.length + ((List.replicate t '`').length + (sep.length + 0)) =
        pre.length + (t + sep.length) := by
      rw [List.length_replicate]
      omega
    rw [he] at h3
    exact h3
  · intro j hj
    rcases Nat.lt_or_ge j pre.length with h1 | h1
    · exact noTick_prefix_region _ hpre h1
    · obtain ⟨m, rfl⟩ : ∃ m, j = pre.length + m := ⟨j - pre.length, by omega⟩
      rw [occursAt_shift]
      have hm : m < t + sep.length := by omega
      rcases Nat.lt_or_ge m t with h2 | h2
      · exact no_marker_in_ticks ht _ m h2 (marker_drop_not_prefix_step sep r2 hsep)
      · obtain ⟨m', rfl⟩ : ∃ m', m = (List.replicate t '`').length + m' :=
          ⟨m - t, by rw [List.length_replicate]; omega⟩
        rw [occursAt_shift]
        rw [List.length_replicate] at hm
        exact noTick_prefix_region _ (fun ch hc => (safeSep_chars hsep ch hc).1) (by omega)

theorem findSubstr_close (RJ A' : Str) (hRJ : ∀ c ∈ RJ, c ≠ '`') :
    findSubstr ("```".toList)
      ('\n' :: (RJ ++ ('\n' :: ('`' :: '`' :: '`' :: A')))) = some (RJ.length + 2) := by
  have hsh : ('\n' :: (RJ ++ ('\n' :: ('`' :: '`' :: '`' :: A')))) =
      ('\n' :: (RJ ++ ['\n'])) ++ ('`' :: '`' :: '`' :: A') := by
    simp
  rw [hsh]
  have hfind : findSubstr ("```".toList) ('`' :: '`' :: '`' :: A') = some 0 := by
    have hp : ("```".toList).isPrefixOf ('`' :: '`' :: '`' :: A') = true :=
      (List.isPrefixOf_iff_prefix).mpr ⟨A', rfl⟩
    rw [findSubstr, if_pos hp]
  have hmin : ∀ j, j < ('\n' :: (RJ ++ ['\n'])).length →
      ¬ occursAt ("```".toList)
        (('\n' :: (RJ ++ ['\n'])) ++ ('`' :: '`' :: '`' :: A')) j := by
    intro j hj
    exact noTick_prefix_region _
      (chars_cons (by decide) (chars_append hRJ (by decide))) hj
  rw [findSubstr_shift _ _ _ hmin, hfind, Option.map_some']
  have hl : (('\n' :: (RJ ++ ['\n'])) : Str).length = RJ.length + 2 := by simp
  rw [hl, Nat.zero_add]

theorem take_close (RJ A' : Str) :
    ('\n' :: (RJ ++ ('\n' :: ('`' :: '`' :: '`' :: A')))).take (RJ.length + 2) =
      '\n' :: (RJ ++ ['\n']) := by
  have hsh : ('\n' :: (RJ ++ ('\n' :: ('`' :: '`' :: '`' :: A')))) =
      ('\n' :: (RJ ++ ['\n'])) ++ ('`' :: '`' :: '`' :: A') := by
    simp
  rw [hsh]
  have hl : (('\n' :: (RJ ++ ['\n'])) : Str).length = RJ.length + 2 := by simp
  rw [← hl, List.take_left]

theorem assembled_drop (pre sep r2 : Str) (t : Nat) :
    ((pre ++ (List.replicate t '`' ++ (sep ++ ("```tool\n".toList ++ r2))))).drop
      ((pre.length + (t + sep.length)) + 7) = '\n' :: r2 := by
  have h1 : (pre.length + (t + sep.length)) + 7 = pre.length + (t + (sep.length + 7)) := by
    omega
  rw [h1, List.drop_append]
  rw [show t + (sep.length + 7) = (List.replicate t '`').length + (sep.length + 7) from by
    rw [List.length_replicate]]
  rw [List.drop_append, List.drop_append]
  rfl

theorem renderToolJson_chars (c : ToolCall) (h : SafeCall c = true) :
    ∀ ch ∈ renderToolJson c, ch ≠ '`' ∧ ch ≠ '<' := by
  have hs := safeJson_toolObj c h
  have h2 := ((renderProps (jsonFuel (Json.obj [(("arguments".toList), c.arguments),
    (("name".toList), Json.str c.name)]))).1 _ hs (le_refl _)).2.1
  rw [show renderToolJson c = renderJson (Json.obj [(("arguments".toList), c.arguments),
    (("name".toList), Json.str c.name)]) from rfl]
  exact h2

theorem fencedPass_assembled : ∀ (pairs : List (ToolCall × Str)) (fuel : Nat)
    (pre sep : Str) (t : Nat),
    (∀ c ∈ pre, c ≠ '`') → t ≤ 3 → SafeSep sep = true →
    (∀ p ∈ pairs, SafeCall p.1 = true ∧ SafeSep p.2 = true) →
    pairs.length ≤ fuel →
    fencedPass fuel (pre ++ (List.replicate t '`' ++ assemble sep pairs)) =
      pairs.map Prod.fst := by
  intro pairs
  induction pairs with
  | nil =>
    intro fuel pre sep t hpre ht hsep _ _
    rw [show assemble sep [] = sep from rfl]
    cases fuel with
    | zero => rfl
    | succ g =>
      rw [fencedPass.eq_def]
      dsimp only
      rw [findSubstr_no_marker_base pre sep t hpre ht hsep]
      rfl
  | cons p ps ih =>
    obtain ⟨c, sep1⟩ := p
    intro fuel pre sep t hpre ht hsep hall hlen
    cases fuel with
    | zero =>
      rw [List.length_cons] at hlen
      omega
    | succ g =>
      have hc : SafeCall c = true := (hall (c, sep1) (List.mem_cons_self _ _)).1
      have hs1 : SafeSep sep1 = true := (hall (c, sep1) (List.mem_cons_self _ _)).2
      rw [show assemble sep ((c, sep1) :: ps) =
          sep ++ ("```tool\n".toList ++ (renderToolJson c ++ ('\n' :: ('`' :: '`' :: '`' ::
            assemble sep1 ps)))) from by
        rw [show assemble sep ((c, sep1) :: ps) = sep ++ renderBlock c ++ assemble sep1 ps
          from rfl, renderBlock_eq]
        simp only [List.append_assoc]
        rw [show ("\n```".toList : Str) ++ assemble sep1 ps =
          '\n' :: ('`' :: '`' :: '`' :: assemble sep1 ps) from rfl]]
      rw [fencedPass.eq_def]
      dsimp only
      rw [findSubstr_marker_step pre sep _ t hpre ht hsep]
      dsimp only
      rw [assembled_drop pre sep _ t]
      rw [findSubstr_close (renderToolJson c) _
        (fun ch hch => (renderToolJson_chars c hc ch hch).1)]
      dsimp only
      rw [take_close (renderToolJson c) _]
      rw [renderToolJson_shape c]
      rw [trimStr_wrap '{' '}' _ (by decide) (by decide)]
      rw [← renderToolJson_shape c]
      rw [parseToolCallStr_render c hc]
      rw [show ('\n' :: (renderToolJson c ++ ('\n' :: ('`' :: '`' :: '`' ::
          assemble sep1 ps)))) =
        ('\n' :: (renderToolJson c ++ ['\n'])) ++
          (List.replicate 3 '`' ++ assemble sep1 ps) from by simp]
      rw [ih g _ sep1 3
        (chars_cons (by decide) (chars_append
          (fun ch hch => (renderToolJson_chars c hc ch hch).1) (by decide)))
        (by omega) hs1
        (fun q hq => hall q (List.mem_cons_of_mem _ hq))
        (by rw [List.length_cons] at hlen; omega)]
      rfl


theorem assemble_length_ge : ∀ (pairs : List (ToolCall × Str)) (sep : Str),
    pairs.length ≤ (assemble sep pairs).length := by
  intro pairs
  induction pairs with
  | nil => intro sep; simp
  | cons p ps ih =>
    obtain ⟨c, sep1⟩ := p
    intro sep
    rw [show assemble sep ((c, sep1) :: ps) = sep ++ renderBlock c ++ assemble sep1 ps
      from rfl, renderBlock_eq]
    have := ih sep1
    simp only [List.length_cons, List.length_append]
    have h8 : ("```tool\n".toList : Str).length = 8 := by decide
    omega

theorem parseXml_no_lt (s : Str) (h : ∀ c ∈ s, c ≠ '<') : parseXmlToolCall s = none := by
  rw [parseXmlToolCall.eq_def]
  have hrf : rfindSubstr ("<arg_value>".toList) s = none := by
    rw [rfindSubstr]
    have hfil : (List.range (s.length + 1)).filter
        (fun i => ("<arg_value>".toList).isPrefixOf (s.drop i)) = [] := by
      rw [List.filter_eq_nil_iff]
      intro i _
      rw [show ("<arg_value>".toList : Str) = '<' :: ("arg_value>".toList) from rfl]
      rw [noChar_no_match _ s h i]
      exact Bool.noConfusion
    rw [hfil]
    rfl
  rw [hrf]

theorem parse_all_assembled (sep0 : Str) (pairs : List (ToolCall × Str))
    (hsep : SafeSep sep0 = true)
    (hall : ∀ p ∈ pairs, SafeCall p.1 = true ∧ SafeSep p.2 = true) :
    parse_all_tool_calls (assemble sep0 pairs) = pairs.map Prod.fst := by
  rw [parse_all_tool_calls]
  have hfp : fencedPass ((assemble sep0 pairs).length + 1) (assemble sep0 pairs) =
      pairs.map Prod.fst := by
    have hb := fencedPass_assembled pairs ((assemble sep0 pairs).length + 1) [] sep0 0
      (by intro c hc; exact absurd hc (List.not_mem_nil c)) (by omega) hsep hall
      (by have := assemble_length_ge pairs sep0; omega)
    simpa using hb
  rw [hfp]
  rw [braceScan_assembled pairs sep0 (pairs.map Prod.fst) hsep hall
    (fun p hp => List.mem_map_of_mem Prod.fst hp)]
  cases pairs with
  | nil =>
    rw [if_pos (show (List.map Prod.fst ([] : List (ToolCall × Str))).isEmpty = true
      from rfl)]
    rw [show assemble sep0 [] = sep0 from rfl]
    rw [parseXml_no_lt sep0 (fun c hc => (safeSep_chars hsep c hc).2.2.2)]
    rfl
  | cons p ps =>
    rw [if_neg (by simp)]

theorem parse_all_no_encoding (s : Str)
    (h1 : containsStr s ("```tool".toList) = false)
    (h2 : ∀ c ∈ s, c ≠ '{')
    (h3 : containsStr s ("<arg_value>".toList) = false) :
    parse_all_tool_calls s = [] := by
  rw [parse_all_tool_calls]
  have hfp : fencedPass (s.length + 1) s = [] := by
    rw [fencedPass.eq_def]
    dsimp only
    have hnone : findSubstr ("```tool".toList) s = none := by
      rw [findSubstr_none_iff]
      intro i hocc
      have hlen := occursAt_length (by decide) hocc
      rw [containsStr] at h1
      have hmem : i ∈ List.range (s.length + 1) := List.mem_range.mpr (by omega)
      have := List.any_eq_false.mp h1 i hmem
      rw [occursAt] at hocc
      exact this hocc
    rw [hnone]
  rw [hfp]
  have hbs : braceScan [] s = [] := by
    rw [braceScan]
    obtain ⟨d', hd'⟩ := braceFold_noOpen s 0 [] h2
    rw [hd']
  rw [hbs]
  rw [if_pos (show (List.isEmpty ([] : List ToolCall)) = true from rfl)]
  have hxml : parseXmlToolCall s = none := by
    rw [parseXmlToolCall.eq_def]
    have hrf : rfindSubstr ("<arg_value>".toList) s = none := by
      rw [rfindSubstr]
      have hfil : (List.range (s.length + 1)).filter
          (fun i => ("<arg_value>".toList).isPrefixOf (s.drop i)) = [] := by
        rw [List.filter_eq_nil_iff]
        intro i hi
        rw [containsStr] at h3
        exact fun hp => (List.any_eq_false.mp h3 i hi) hp
      rw [hfil]
      rfl
    rw [hrf]
  rw [hxml]

/-- **C7**: a model text built of `N` pairwise-distinct well-formed fenced
tool blocks (reserved ```` ```tool ```` marker, JSON object with `name`
and `arguments`) separated by fence-free, brace-free, non-XML text makes
`parse_all_tool_calls` return exactly those `N` calls in source order;
a text containing no fence marker, no brace and no XML tag yields `[]`. -/
theorem parse_all_fenced_blocks_exact :
    (∀ (sep0 : Str) (pairs : List (ToolCall × Str)),
      SafeSep sep0 = true →
      (∀ p ∈ pairs, SafeCall p.1 = true ∧ SafeSep p.2 = true) →
      pairs.Pairwise (fun a b => a.1 ≠ b.1) →
      parse_all_tool_calls (assemble sep0 pairs) = pairs.map Prod.fst) ∧
    (∀ s : Str, containsStr s ("```tool".toList) = false → (∀ c ∈ s, c ≠ '{') →
      containsStr s ("<arg_value>".toList) = false →
      parse_all_tool_calls s = []) :=
  ⟨fun sep0 pairs h1 h2 _ => parse_all_assembled sep0 pairs h1 h2,
   parse_all_no_encoding⟩

/-- Witness for C7: two distinct concrete fenced blocks parse to exactly
those two calls in order, and a plain text parses to `[]`. -/
theorem parse_all_fenced_blocks_exact_witness :
    parse_all_tool_calls (assemble ("Hi.\n".toList)
      [(⟨"get".toList, Json.obj []⟩, "\n".toList),
       (⟨"search".toList, Json.obj [(("q".toList), Json.str ("x".toList))]⟩, [])]) =
      [⟨"get".toList, Json.obj []⟩,
       ⟨"search".toList, Json.obj [(("q".toList), Json.str ("x".toList))]⟩] ∧
    parse_all_tool_calls ("hello world".toList) = [] :=
  ⟨parse_all_fenced_blocks_exact.1 ("Hi.\n".toList)
      [(⟨"get".toList, Json.obj []⟩, "\n".toList),
       (⟨"search".toList, Json.obj [(("q".toList), Json.str ("x".toList))]⟩, [])]
      (by decide) (by decide) (by decide),
   parse_all_fenced_blocks_exact.2 ("hello world".toList)
      (by decide) (by decide) (by decide)⟩


end WebClaw
